import Mathlib

/-!
Verification of the GoDB teaching database engine (mit-6.5830 go-db-2024).

The Lean definitions below are a shallow embedding of the Go sources:
`heap_page.go` (slotted heap pages and their binary serialization),
the Insert/Delete sink operators, the OrderBy comparator, the aggregation
states, the blocked hash equality join, the heap-file iterator, and the
`computeFieldSum` entry point.

Go machine integers are modelled as `Int` with explicit reduction modulo
`2 ^ 64` (`wrap64`) at the points where 64-bit overflow is observable
(running sums).  Counters that are bounded by a list length or by the slot
count of a 4096-byte page can never reach `2 ^ 31`, so they are modelled as
unbounded `Int` without the redundant reduction.  Go strings are modelled
as their byte sequences (`List Nat`, each entry below 256), which matches
both Go string comparison (bytewise lexicographic) and the fixed-width
serialization format.

The files `types.go` and `tuple.go` of the repository are not among the
provided sources; definitions taken from them (field types, `DBValue`,
`EvalPred`, `writeTo`/`readTupleFrom`, `TupleDesc.equals`, `findFieldInTd`,
`joinTuples`, record ids) are modelled from the specification and are marked
`Modelled from the spec:` in their doc comments.  Everything else is
translated from the Go sources directly.
-/

namespace GoDB

/-- Modelled from the spec: page size in bytes, default 4096 (`types.go` is
not among the provided sources). -/
def PageSize : Nat := 4096

/-- Modelled from the spec: serialized width of a string field in bytes,
default 32. -/
def StringLength : Nat := 32

/-- Reduction of a mathematical integer to the Go int64 it denotes:
reduce modulo `2 ^ 64` into the interval `[-2 ^ 63, 2 ^ 63)`. -/
def wrap64 (n : Int) : Int := (n + 2 ^ 63) % 2 ^ 64 - 2 ^ 63

/-- Modelled from the spec: the field-type tag, a tagged enum over
IntType and StringType. -/
inductive DBType
  | IntType
  | StringType
deriving DecidableEq, Repr

/-- Modelled from the spec: a field descriptor (name, table qualifier, type). -/
structure FieldType where
  Fname : String
  TableQualifier : String
  Ftype : DBType
deriving DecidableEq, Repr

/-- Modelled from the spec: a tuple descriptor, an ordered sequence of field
descriptors. -/
structure TupleDesc where
  Fields : List FieldType
deriving DecidableEq, Repr

/-- Modelled from the spec: a field value, either a 64-bit integer or a
fixed-width string.  The string is modelled as its byte sequence. -/
inductive DBValue
  | IntField (Value : Int)
  | StringField (Value : List Nat)
deriving DecidableEq, Repr

/-- Modelled from the spec: the predicate operators usable between two values. -/
inductive BoolOp
  | OpGt
  | OpLt
  | OpGe
  | OpLe
  | OpEq
  | OpNeq
  | OpLike
deriving DecidableEq, Repr

/-- Bytewise lexicographic order on byte sequences; this is exactly the Go
`<` on strings. -/
def bytesLt : List Nat → List Nat → Bool
  | [], [] => false
  | [], _ :: _ => true
  | _ :: _, [] => false
  | a :: as, b :: bs => if a < b then true else if b < a then false else bytesLt as bs

/-- Modelled from the spec: predicate evaluation between two values.  Values
of matching variants compare by the numeric or bytewise order; mixed-variant
comparisons fail, which the boolean-valued signature used by this repository
renders as `false`.  `OpLike` lives in the missing `types.go` and is not
exercised by any claim; it is rendered as `false` here. -/
def DBValue.EvalPred (v w : DBValue) (op : BoolOp) : Bool :=
  match v, w with
  | .IntField a, .IntField b =>
    match op with
    | .OpGt => decide (b < a)
    | .OpLt => decide (a < b)
    | .OpGe => decide (b ≤ a)
    | .OpLe => decide (a ≤ b)
    | .OpEq => a == b
    | .OpNeq => a != b
    | .OpLike => false
  | .StringField a, .StringField b =>
    match op with
    | .OpGt => bytesLt b a
    | .OpLt => bytesLt a b
    | .OpGe => !bytesLt a b
    | .OpLe => !bytesLt b a
    | .OpEq => a == b
    | .OpNeq => a != b
    | .OpLike => false
  | _, _ => false

/-- Error codes of the GoDB error taxonomy (spec section 7; `FieldNotFoundError`
appears in spec section 4.1). -/
inductive GoDBErrorCode
  | TypeMismatchError
  | MalformedDataError
  | IllegalOperationError
  | PageFullError
  | TupleNotFoundError
  | IncompatibleTypesError
  | BufferFullError
  | FieldNotFoundError
  | AmbiguousNameError
deriving DecidableEq, Repr

/-- Structured error carried on every fallible operation. -/
structure GoDBError where
  code : GoDBErrorCode
  errString : String
deriving DecidableEq, Repr

/-- Modelled from the spec: a record identifier is an opaque
(page-number, slot) pair exposing equality and the split operation. -/
structure RecordID where
  pageNo : Int
  slot : Int
deriving DecidableEq, Repr

/-- Constructor used by `heapPage.insertTuple` and `initFromBuffer`. -/
def getRecordID (pageNo slot : Int) : RecordID := ⟨pageNo, slot⟩

/-- Split a record id back into (page number, slot). -/
def splitRecordID (r : RecordID) : Int × Int := (r.pageNo, r.slot)

/-- Modelled from the spec: a tuple is a descriptor, the ordered values, and
an optional record id (`nil` in Go before the tuple reaches storage). -/
structure Tuple where
  Desc : TupleDesc
  Fields : List DBValue
  Rid : Option RecordID
deriving DecidableEq, Repr

/-- Modelled from the spec: an expression is used by the operators only
through its `EvalExpr` method, which evaluates a tuple to a value or fails;
it is embedded as that evaluation function (`none` = error). -/
abbrev Expr := Tuple → Option DBValue

/-- Per-field serialized size in bytes (`newHeapPage`, heap_page.go): 8 for an
integer, `StringLength` for a string. -/
def fieldSizeBytes (ft : FieldType) : Int :=
  match ft.Ftype with
  | .IntType => 8
  | .StringType => (StringLength : Int)

/-- Serialized size of one tuple of the given descriptor (`perTupleSize` in
`newHeapPage`). -/
def tupleSizeBytes (desc : TupleDesc) : Int :=
  desc.Fields.foldl (fun acc f => acc + fieldSizeBytes f) 0

/-- In-memory heap page (heap_page.go).  The back pointer to the owning file
is dropped; no claim mentions `getFile`.  `slotCount` and `slotUsed` are Go
int32 fields; they are bounded by the page capacity in every reachable state,
far below the int32 range. -/
structure heapPage where
  pageNo : Int
  dirty : Bool
  desc : TupleDesc
  slotCount : Int
  slotUsed : Int
  tuples : List (Option Tuple)
deriving DecidableEq, Repr

/-- Construction of a fresh zero-occupancy page (`newHeapPage`).  The Go
error branch for an unknown field type is unrepresentable over the closed
`DBType`; Go panics on an empty descriptor (division by zero), so theorems
about fresh pages assume a positive tuple size. -/
def newHeapPage (desc : TupleDesc) (pageNo : Int) : heapPage :=
  let remPageSize : Int := (PageSize : Int) - 8
  let count := Int.tdiv remPageSize (tupleSizeBytes desc)
  { pageNo := pageNo
    dirty := false
    desc := desc
    slotCount := count
    slotUsed := 0
    tuples := List.replicate count.toNat none }

/-- Index of the first free slot, mirroring the scan loop of
`heapPage.insertTuple`. -/
def firstNone : List (Option Tuple) → Option Nat
  | [] => none
  | none :: _ => some 0
  | some _ :: rest => (firstNone rest).map (· + 1)

/-- Insert into the first free slot (`heapPage.insertTuple`): stores a copy
of the tuple carrying the page descriptor and the issued rid, increments
`slotUsed`, sets the dirty flag; `PageFullError` when no slot is free. -/
def heapPage.insertTuple (h : heapPage) (t : Tuple) :
    Except GoDBError (RecordID × heapPage) :=
  match firstNone h.tuples with
  | none => .error ⟨.PageFullError, "can not find free slot"⟩
  | some idx =>
    let id := getRecordID h.pageNo (idx : Int)
    .ok (id,
      { h with
        tuples := h.tuples.set idx (some { Desc := h.desc, Fields := t.Fields, Rid := some id })
        slotUsed := h.slotUsed + 1
        dirty := true })

/-- Delete the tuple addressed by a record id (`heapPage.deleteTuple`):
bounds-check the slot, require it occupied, clear it, decrement `slotUsed`,
set the dirty flag. -/
def heapPage.deleteTuple (h : heapPage) (rid : RecordID) : Except GoDBError heapPage :=
  let slot := (splitRecordID rid).2
  if slot < 0 ∨ (h.tuples.length : Int) ≤ slot then
    .error ⟨.TupleNotFoundError, "invalid record id"⟩
  else
    match h.tuples[slot.toNat]? with
    | some (some _) =>
      .ok { h with
        tuples := h.tuples.set slot.toNat none
        slotUsed := h.slotUsed - 1
        dirty := true }
    | _ => .error ⟨.TupleNotFoundError, "invalid record id"⟩

/-- Occupied slots of a page, in ascending slot order. -/
def heapPage.occupied (h : heapPage) : List Tuple := h.tuples.filterMap id

/-- Values held by the occupied slots, in ascending slot order. -/
def heapPage.occupiedValues (h : heapPage) : List (List DBValue) :=
  h.occupied.map Tuple.Fields

/-- Drained output of `heapPage.tupleIter`: the iterator returns immediately
when `slotUsed` is zero, otherwise walks the slots in ascending order
skipping empty ones. -/
def heapPage.tupleIterList (h : heapPage) : List Tuple :=
  if h.slotUsed = 0 then [] else h.occupied

/-- One page-level mutation, for stating invariants over operation sequences. -/
inductive PageOp
  | ins (t : Tuple)
  | del (rid : RecordID)
deriving Repr

/-- Apply one operation; on an error return the page is unchanged, exactly as
in the Go methods (both error paths return before any mutation). -/
def heapPage.applyOp (h : heapPage) : PageOp → heapPage
  | .ins t =>
    match h.insertTuple t with
    | .ok (_, h2) => h2
    | .error _ => h
  | .del rid =>
    match h.deleteTuple rid with
    | .ok h2 => h2
    | .error _ => h

/-- Apply a sequence of insert/delete operations. -/
def heapPage.applyOps (h : heapPage) (ops : List PageOp) : heapPage :=
  ops.foldl heapPage.applyOp h

/-- Structural well-formedness of a page: the occupancy counter matches the
occupied slots and the capacity field matches the slot array length. -/
def heapPage.wfB (h : heapPage) : Bool :=
  h.slotUsed == (h.occupied.length : Int) && h.slotCount == (h.tuples.length : Int)

/-- Little-endian encoding of a natural number into `k` bytes. -/
def natToLE : Nat → Nat → List Nat
  | 0, _ => []
  | k + 1, n => n % 256 :: natToLE k (n / 256)

/-- Little-endian decoding of a byte list. -/
def leToNat : List Nat → Nat
  | [] => 0
  | b :: bs => b + 256 * leToNat bs

/-- The unsigned `w`-bit pattern of a (signed) integer. -/
def toUns (w : Nat) (n : Int) : Nat := (n % ((2 ^ w : Nat) : Int)).toNat

/-- Reading a `w`-bit pattern back as a two-complement signed integer. -/
def ofUns (w : Nat) (m : Nat) : Int :=
  if m < 2 ^ (w - 1) then (m : Int) else (m : Int) - ((2 ^ w : Nat) : Int)

/-- Serialization of an int32 in little-endian order (`binary.Write` with
`binary.LittleEndian`). -/
def int32LE (n : Int) : List Nat := natToLE 4 (toUns 32 n)

/-- Serialization of an int64 in little-endian order. -/
def int64LE (n : Int) : List Nat := natToLE 8 (toUns 64 n)

/-- Modelled from the spec: a string is padded or truncated to exactly
`StringLength` bytes on serialization. -/
def padTruncBytes (bs : List Nat) : List Nat :=
  bs.take StringLength ++ List.replicate (StringLength - bs.length) 0

/-- Modelled from the spec: serialized form of one field value (8 bytes for
an integer, `StringLength` bytes for a string). -/
def writeValue : DBValue → List Nat
  | .IntField v => int64LE v
  | .StringField s => padTruncBytes s

/-- Modelled from the spec: `Tuple.writeTo` writes the field values in
descriptor order. -/
def Tuple.writeTo (t : Tuple) : List Nat := t.Fields.flatMap writeValue

/-- Consume exactly `k` bytes from a buffer, failing on a short read as
`binary.Read` does. -/
def takeBytes (k : Nat) (bs : List Nat) : Except GoDBError (List Nat × List Nat) :=
  if bs.length < k then .error ⟨.MalformedDataError, "unexpected end of buffer"⟩
  else .ok (bs.take k, bs.drop k)

/-- Modelled from the spec: deserialize one field value; the zero padding of
a stored string is stripped when reading it back (required for the spec
round-trip property, since values are padded on write). -/
def readValue (ty : DBType) (bs : List Nat) : Except GoDBError (DBValue × List Nat) :=
  match ty with
  | .IntType =>
    match takeBytes 8 bs with
    | .error e => .error e
    | .ok (w, rest) => .ok (.IntField (ofUns 64 (leToNat w)), rest)
  | .StringType =>
    match takeBytes StringLength bs with
    | .error e => .error e
    | .ok (w, rest) => .ok (.StringField (w.takeWhile (· != 0)), rest)

/-- Deserialize the value sequence of one tuple, field by field. -/
def readValues : List FieldType → List Nat → Except GoDBError (List DBValue × List Nat)
  | [], bs => .ok ([], bs)
  | ft :: fts, bs =>
    match readValue ft.Ftype bs with
    | .error e => .error e
    | .ok (v, rest) =>
      match readValues fts rest with
      | .error e => .error e
      | .ok (vs, rest2) => .ok (v :: vs, rest2)

/-- Modelled from the spec: `readTupleFrom` reads one tuple of the descriptor
from the buffer; `initFromBuffer` then overwrites its descriptor and rid. -/
def readTupleFrom (desc : TupleDesc) (bs : List Nat) :
    Except GoDBError (Tuple × List Nat) :=
  match readValues desc.Fields bs with
  | .error e => .error e
  | .ok (vs, rest) => .ok ({ Desc := desc, Fields := vs, Rid := none }, rest)

/-- Read `k` consecutive tuples (the `slotUsed` loop of `initFromBuffer`). -/
def readTuples (desc : TupleDesc) : Nat → List Nat → Except GoDBError (List Tuple × List Nat)
  | 0, bs => .ok ([], bs)
  | k + 1, bs =>
    match readTupleFrom desc bs with
    | .error e => .error e
    | .ok (t, rest) =>
      match readTuples desc k rest with
      | .error e => .error e
      | .ok (ts, rest2) => .ok (t :: ts, rest2)

/-- Serialize a page (`heapPage.toBuffer`): the two int32 header words in
little-endian order, the occupied tuples in ascending slot order (hence
compacted), and zero padding up to `PageSize`. -/
def heapPage.toBuffer (h : heapPage) : List Nat :=
  let body := int32LE h.slotCount ++ int32LE h.slotUsed ++ h.occupied.flatMap Tuple.writeTo
  body ++ List.replicate (PageSize - body.length) 0

/-- Stamp record ids (pageNo, slot index) onto consecutively numbered tuples,
mirroring the read loop of `initFromBuffer`. -/
def stampRids (pageNo : Int) : Nat → List Tuple → List Tuple
  | _, [] => []
  | i, t :: ts =>
    { t with Rid := some (getRecordID pageNo (i : Int)) } :: stampRids pageNo (i + 1) ts

/-- Deserialize a page (`heapPage.initFromBuffer`): read the header, allocate
`slotCount` empty slots, then read `slotUsed` tuples into slots
`0..slotUsed-1`, each stamped with rid (pageNo, slot) and the page
descriptor.  A buffer whose `slotUsed` exceeds its `slotCount` makes the Go
code panic on a slice index; this model is only applied to well-formed
buffers, where the occupied prefix fits. -/
def initFromBuffer (desc : TupleDesc) (pageNo : Int) (bs : List Nat) :
    Except GoDBError heapPage :=
  match takeBytes 4 bs with
  | .error e => .error e
  | .ok (cntB, r1) =>
    let slotCount := ofUns 32 (leToNat cntB)
    match takeBytes 4 r1 with
    | .error e => .error e
    | .ok (usedB, r2) =>
      let slotUsed := ofUns 32 (leToNat usedB)
      match readTuples desc slotUsed.toNat r2 with
      | .error e => .error e
      | .ok (ts, _) =>
        .ok { pageNo := pageNo
              dirty := false
              desc := desc
              slotCount := slotCount
              slotUsed := slotUsed
              tuples := (stampRids pageNo 0 ts).map some
                ++ List.replicate (slotCount.toNat - slotUsed.toNat) none }

/-- Well-formedness of a single value: an integer fits in int64; a string
fits in `StringLength` bytes, its bytes are bytes, and it contains no NUL
(Go strings written to a page must be NUL-free for the padded format to be
invertible, which the spec round-trip property presumes). -/
def DBValue.wfB : DBValue → Bool
  | .IntField v => decide (-(2 ^ 63 : Int) ≤ v) && decide (v < 2 ^ 63)
  | .StringField s =>
    decide (s.length ≤ StringLength) && s.all fun b => decide (0 < b) && decide (b < 256)

/-- One value matches one field descriptor: the variant agrees with the
declared type and the value is well-formed. -/
def valueMatchesB (ft : FieldType) (v : DBValue) : Bool :=
  match ft.Ftype, v with
  | .IntType, .IntField _ => v.wfB
  | .StringType, .StringField _ => v.wfB
  | _, _ => false

/-- Pointwise well-formedness of a value sequence against a field list. -/
def valuesWfB : List FieldType → List DBValue → Bool
  | [], [] => true
  | ft :: fts, v :: vs => valueMatchesB ft v && valuesWfB fts vs
  | _, _ => false

/-- A tuple is well-formed for a descriptor when its values match it
pointwise. -/
def tupleWfB (desc : TupleDesc) (t : Tuple) : Bool :=
  valuesWfB desc.Fields t.Fields

/-- A page is serializable when it is structurally well-formed, its slot
array fits an int32 header, and every occupied tuple matches the page
descriptor. -/
def heapPage.serializableB (h : heapPage) : Bool :=
  h.wfB && decide (h.tuples.length < 2 ^ 31) && h.occupied.all (tupleWfB h.desc)

/-- Sample single-int-column descriptor used by concrete witnesses. -/
def sampleDesc : TupleDesc := ⟨[⟨"x", "", .IntType⟩]⟩

/-- Sample tuple over `sampleDesc`. -/
def sampleTuple (n : Int) : Tuple := ⟨sampleDesc, [.IntField n], none⟩

/-- Sample well-formed page with one occupied and two free slots. -/
def samplePage : heapPage :=
  ⟨0, false, sampleDesc, 3, 1, [some (sampleTuple 7), none, none]⟩

theorem natToLE_length : ∀ (k n : Nat), (natToLE k n).length = k := by
  intro k
  induction k with
  | zero => intro n; rfl
  | succ k ih => intro n; simp [natToLE, ih]

theorem leToNat_natToLE : ∀ (k n : Nat), leToNat (natToLE k n) = n % 256 ^ k := by
  intro k
  induction k with
  | zero => intro n; simp [natToLE, leToNat, Nat.mod_one]
  | succ k ih =>
    intro n
    have h256 : (256 : Nat) ^ (k + 1) = 256 * 256 ^ k := by ring
    rw [h256, Nat.mod_mul]
    simp [natToLE, leToNat, ih]

theorem toUns_lt (w : Nat) (n : Int) : toUns w n < 2 ^ w := by
  unfold toUns
  have hpos : (0 : Int) < ((2 ^ w : Nat) : Int) := by positivity
  have h1 := Int.emod_lt_of_pos n hpos
  have h2 := Int.emod_nonneg n (ne_of_gt hpos)
  omega

theorem ofUns_toUns_64 (n : Int) (h1 : -(2 ^ 63) ≤ n) (h2 : n < 2 ^ 63) :
    ofUns 64 (toUns 64 n) = n := by
  unfold ofUns toUns
  norm_num
  omega

theorem ofUns_toUns_32 (n : Int) (h1 : -(2 ^ 31) ≤ n) (h2 : n < 2 ^ 31) :
    ofUns 32 (toUns 32 n) = n := by
  unfold ofUns toUns
  norm_num
  omega

theorem leToNat_int64LE (n : Int) : leToNat (int64LE n) = toUns 64 n := by
  unfold int64LE
  rw [leToNat_natToLE]
  have hlt := toUns_lt 64 n
  have h : (256 : Nat) ^ 8 = 2 ^ 64 := by norm_num
  rw [h]
  exact Nat.mod_eq_of_lt hlt

theorem leToNat_int32LE (n : Int) : leToNat (int32LE n) = toUns 32 n := by
  unfold int32LE
  rw [leToNat_natToLE]
  have hlt := toUns_lt 32 n
  have h : (256 : Nat) ^ 4 = 2 ^ 32 := by norm_num
  rw [h]
  exact Nat.mod_eq_of_lt hlt

theorem takeBytes_append (l r : List Nat) (k : Nat) (hlen : l.length = k) :
    takeBytes k (l ++ r) = .ok (l, r) := by
  subst hlen
  unfold takeBytes
  have hnot : ¬ ((l ++ r).length < l.length) := by
    simp [List.length_append]
  simp [hnot, List.take_left, List.drop_left]

theorem takeWhile_append_replicate (s : List Nat) (k : Nat)
    (h : ∀ b ∈ s, b ≠ 0) :
    (s ++ List.replicate k (0 : Nat)).takeWhile (· != 0) = s := by
  induction s with
  | nil =>
    cases k with
    | zero => rfl
    | succ k => simp [List.replicate_succ, List.takeWhile_cons]
  | cons a s ih =>
    have ha : a ≠ 0 := h a (by simp)
    have hs : ∀ b ∈ s, b ≠ 0 := fun b hb => h b (by simp [hb])
    simp [List.takeWhile_cons, ha, ih hs]

theorem readValue_roundtrip (ft : FieldType) (v : DBValue) (rest : List Nat)
    (h : valueMatchesB ft v = true) :
    readValue ft.Ftype (writeValue v ++ rest) = .ok (v, rest) := by
  cases v with
  | IntField n =>
    cases hty : ft.Ftype with
    | StringType => simp [valueMatchesB, hty] at h
    | IntType =>
      simp only [valueMatchesB, hty, DBValue.wfB, Bool.and_eq_true, decide_eq_true_eq] at h
      obtain ⟨h1, h2⟩ := h
      have hlen : (int64LE n).length = 8 := natToLE_length 8 _
      simp only [readValue, writeValue, takeBytes_append _ _ 8 hlen,
        leToNat_int64LE, ofUns_toUns_64 n h1 h2]
  | StringField s =>
    cases hty : ft.Ftype with
    | IntType => simp [valueMatchesB, hty] at h
    | StringType =>
      simp only [valueMatchesB, hty, DBValue.wfB, Bool.and_eq_true, decide_eq_true_eq,
        List.all_eq_true] at h
      obtain ⟨h1, h2⟩ := h
      have htake : s.take StringLength = s := List.take_of_length_le h1
      have hlen : (padTruncBytes s).length = StringLength := by
        simp [padTruncBytes, htake, List.length_replicate]
        omega
      have hnz : ∀ b ∈ s, b ≠ 0 := by
        intro b hb
        have := h2 b hb
        omega
      simp only [readValue, writeValue, takeBytes_append _ _ StringLength hlen]
      simp only [padTruncBytes, htake, takeWhile_append_replicate s _ hnz]

theorem readValues_roundtrip : ∀ (fts : List FieldType) (vs : List DBValue) (rest : List Nat),
    valuesWfB fts vs = true →
    readValues fts (vs.flatMap writeValue ++ rest) = .ok (vs, rest) := by
  intro fts
  induction fts with
  | nil =>
    intro vs rest h
    cases vs with
    | nil => simp [readValues]
    | cons v vs => simp [valuesWfB] at h
  | cons ft fts ih =>
    intro vs rest h
    cases vs with
    | nil => simp [valuesWfB] at h
    | cons v vs =>
      simp only [valuesWfB, Bool.and_eq_true] at h
      obtain ⟨h1, h2⟩ := h
      have hassoc : (v :: vs).flatMap writeValue ++ rest
          = writeValue v ++ (vs.flatMap writeValue ++ rest) := by
        simp [List.flatMap_cons, List.append_assoc]
      rw [hassoc]
      simp only [readValues, readValue_roundtrip ft v _ h1, ih vs rest h2]

theorem readTupleFrom_roundtrip (desc : TupleDesc) (t : Tuple) (rest : List Nat)
    (h : tupleWfB desc t = true) :
    readTupleFrom desc (t.writeTo ++ rest) = .ok (⟨desc, t.Fields, none⟩, rest) := by
  simp only [readTupleFrom, Tuple.writeTo, readValues_roundtrip desc.Fields t.Fields rest h]

theorem readTuples_roundtrip : ∀ (ts : List Tuple) (desc : TupleDesc) (rest : List Nat),
    ts.all (tupleWfB desc) = true →
    readTuples desc ts.length (ts.flatMap Tuple.writeTo ++ rest)
      = .ok (ts.map fun t => ⟨desc, t.Fields, none⟩, rest) := by
  intro ts
  induction ts with
  | nil => intro desc rest h; simp [readTuples]
  | cons t ts ih =>
    intro desc rest h
    simp only [List.all_cons, Bool.and_eq_true] at h
    obtain ⟨h1, h2⟩ := h
    have hassoc : (t :: ts).flatMap Tuple.writeTo ++ rest
        = t.writeTo ++ (ts.flatMap Tuple.writeTo ++ rest) := by
      simp [List.flatMap_cons, List.append_assoc]
    simp only [List.length_cons, readTuples, hassoc,
      readTupleFrom_roundtrip desc t _ h1, ih desc rest h2, List.map_cons]

theorem stampRids_map_fields : ∀ (ts : List Tuple) (pageNo : Int) (i : Nat),
    (stampRids pageNo i ts).map Tuple.Fields = ts.map Tuple.Fields := by
  intro ts
  induction ts with
  | nil => intro pageNo i; rfl
  | cons t ts ih => intro pageNo i; simp [stampRids, ih]

theorem filterMap_id_map_some_append_replicate (ts : List Tuple) (k : Nat) :
    ((ts.map some ++ List.replicate k (none : Option Tuple)).filterMap id) = ts := by
  rw [List.filterMap_append]
  have h1 : (ts.map some).filterMap id = ts := by
    rw [List.filterMap_map]
    exact List.filterMap_some ts
  have h2 : (List.replicate k (none : Option Tuple)).filterMap id = [] := by
    induction k with
    | zero => rfl
    | succ k ih => simp [List.replicate_succ, List.filterMap_cons, ih]
  rw [h1, h2, List.append_nil]

theorem initFromBuffer_parse (h : heapPage) (tail : List Nat)
    (hused : h.slotUsed = (h.occupied.length : Int))
    (hcount : h.slotCount = (h.tuples.length : Int))
    (hlen31 : h.tuples.length < 2 ^ 31)
    (hall : h.occupied.all (tupleWfB h.desc) = true) :
    initFromBuffer h.desc h.pageNo
        (int32LE h.slotCount ++ (int32LE h.slotUsed
          ++ (h.occupied.flatMap Tuple.writeTo ++ tail)))
      = .ok { pageNo := h.pageNo, dirty := false, desc := h.desc,
              slotCount := h.slotCount, slotUsed := h.slotUsed,
              tuples :=
                (stampRids h.pageNo 0 (h.occupied.map fun t => ⟨h.desc, t.Fields, none⟩)).map some
                ++ List.replicate (h.slotCount.toNat - h.slotUsed.toNat) none } := by
  have hocc_le : h.occupied.length ≤ h.tuples.length := List.length_filterMap_le _ _
  have hsc2 : h.slotCount < 2 ^ 31 := by rw [hcount]; exact_mod_cast hlen31
  have hsc1 : -(2 ^ 31 : Int) ≤ h.slotCount := by
    rw [hcount]
    have : (0 : Int) ≤ (h.tuples.length : Int) := Int.ofNat_nonneg _
    linarith
  have hsu2 : h.slotUsed < 2 ^ 31 := by
    rw [hused]
    have := lt_of_le_of_lt hocc_le hlen31
    exact_mod_cast this
  have hsu1 : -(2 ^ 31 : Int) ≤ h.slotUsed := by
    rw [hused]
    have : (0 : Int) ≤ (h.occupied.length : Int) := Int.ofNat_nonneg _
    linarith
  have hdec1 : ofUns 32 (leToNat (int32LE h.slotCount)) = h.slotCount := by
    rw [leToNat_int32LE]; exact ofUns_toUns_32 _ hsc1 hsc2
  have hdec2 : ofUns 32 (leToNat (int32LE h.slotUsed)) = h.slotUsed := by
    rw [leToNat_int32LE]; exact ofUns_toUns_32 _ hsu1 hsu2
  have htn : h.slotUsed.toNat = h.occupied.length := by rw [hused]; simp
  have ht1 := takeBytes_append (int32LE h.slotCount)
    (int32LE h.slotUsed ++ (h.occupied.flatMap Tuple.writeTo ++ tail)) 4 (natToLE_length 4 _)
  have ht2 := takeBytes_append (int32LE h.slotUsed)
    (h.occupied.flatMap Tuple.writeTo ++ tail) 4 (natToLE_length 4 _)
  have ht3 := readTuples_roundtrip h.occupied h.desc tail hall
  simp only [initFromBuffer, ht1, ht2, hdec1, hdec2, htn, ht3]

/-- Claim C1: serializing a serializable heap page with `toBuffer` and
reading the result back with `initFromBuffer` succeeds and yields a page
whose occupied slots hold a multiset of tuple values equal to the
original's, with `slotUsed` unchanged (the occupied tuples are compacted
into slots `0..slotUsed-1`). -/
theorem C1_page_serialization_roundtrip (h : heapPage) (hser : h.serializableB = true) :
    ∃ h2, initFromBuffer h.desc h.pageNo h.toBuffer = .ok h2
      ∧ h2.slotUsed = h.slotUsed
      ∧ (h2.occupiedValues : Multiset (List DBValue))
        = (h.occupiedValues : Multiset (List DBValue)) := by
  simp only [heapPage.serializableB, heapPage.wfB, Bool.and_eq_true, beq_iff_eq,
    decide_eq_true_eq] at hser
  obtain ⟨⟨⟨hused, hcount⟩, hlen31⟩, hall⟩ := hser
  have hbuf : h.toBuffer = int32LE h.slotCount ++ (int32LE h.slotUsed
      ++ (h.occupied.flatMap Tuple.writeTo
        ++ List.replicate (PageSize
          - (int32LE h.slotCount ++ int32LE h.slotUsed
            ++ h.occupied.flatMap Tuple.writeTo).length) 0)) := by
    simp [heapPage.toBuffer, List.append_assoc]
  rw [hbuf, initFromBuffer_parse h _ hused hcount hlen31 hall]
  refine ⟨_, rfl, rfl, ?_⟩
  simp only [heapPage.occupiedValues, heapPage.occupied,
    filterMap_id_map_some_append_replicate, stampRids_map_fields, List.map_map]
  rfl

/-- Witness for claim C1 at a concrete page. -/
theorem C1_page_serialization_roundtrip_witness :
    samplePage.serializableB = true
    ∧ ∃ h2, initFromBuffer samplePage.desc samplePage.pageNo samplePage.toBuffer = .ok h2
        ∧ h2.slotUsed = samplePage.slotUsed
        ∧ (h2.occupiedValues : Multiset (List DBValue))
          = (samplePage.occupiedValues : Multiset (List DBValue)) :=
  ⟨by decide, C1_page_serialization_roundtrip samplePage (by decide)⟩

theorem firstNone_get : ∀ (l : List (Option Tuple)) (idx : Nat),
    firstNone l = some idx → l[idx]? = some none := by
  intro l
  induction l with
  | nil => intro idx h; simp [firstNone] at h
  | cons a rest ih =>
    intro idx h
    cases a with
    | none =>
      simp [firstNone] at h
      subst h
      simp
    | some t =>
      simp [firstNone, Option.map_eq_some'] at h
      obtain ⟨j, hj, hidx⟩ := h
      subst hidx
      simpa using ih j hj

theorem countOcc_set_some : ∀ (l : List (Option Tuple)) (idx : Nat) (t : Tuple),
    l[idx]? = some none →
    ((l.set idx (some t)).filterMap id).length = (l.filterMap id).length + 1 := by
  intro l
  induction l with
  | nil => intro idx t h; simp at h
  | cons a rest ih =>
    intro idx t h
    cases idx with
    | zero =>
      simp at h
      subst h
      simp [List.filterMap_cons]
    | succ j =>
      simp at h
      cases a with
      | none => simpa [List.filterMap_cons] using ih j t h
      | some b => simpa [List.filterMap_cons] using ih j t h

theorem countOcc_set_none : ∀ (l : List (Option Tuple)) (idx : Nat) (t0 : Tuple),
    l[idx]? = some (some t0) →
    ((l.set idx none).filterMap id).length + 1 = (l.filterMap id).length := by
  intro l
  induction l with
  | nil => intro idx t0 h; simp at h
  | cons a rest ih =>
    intro idx t0 h
    cases idx with
    | zero =>
      simp at h
      subst h
      simp [List.filterMap_cons]
    | succ j =>
      simp at h
      cases a with
      | none => simpa [List.filterMap_cons] using ih j t0 h
      | some b => simpa [List.filterMap_cons] using ih j t0 h

theorem wfB_applyOp (h : heapPage) (op : PageOp) (hwf : h.wfB = true) :
    (h.applyOp op).wfB = true := by
  simp only [heapPage.wfB, Bool.and_eq_true, beq_iff_eq] at hwf ⊢
  obtain ⟨hused, hcount⟩ := hwf
  cases op with
  | ins t =>
    simp only [heapPage.applyOp, heapPage.insertTuple]
    cases hfn : firstNone h.tuples with
    | none => exact ⟨hused, hcount⟩
    | some idx =>
      have hget := firstNone_get h.tuples idx hfn
      have hset := countOcc_set_some h.tuples idx
        { Desc := h.desc, Fields := t.Fields, Rid := some (getRecordID h.pageNo (idx : Int)) } hget
      constructor
      · simp only [heapPage.occupied] at hused ⊢
        rw [hset]
        push_cast
        omega
      · simp only [List.length_set]
        exact hcount
  | del rid =>
    simp only [heapPage.applyOp, heapPage.deleteTuple]
    by_cases hb : (splitRecordID rid).2 < 0 ∨ (h.tuples.length : Int) ≤ (splitRecordID rid).2
    · simp only [hb, if_true]
      exact ⟨hused, hcount⟩
    · simp only [hb, if_false]
      cases hget : h.tuples[(splitRecordID rid).2.toNat]? with
      | none => exact ⟨hused, hcount⟩
      | some o =>
        cases o with
        | none => exact ⟨hused, hcount⟩
        | some t0 =>
          have hset := countOcc_set_none h.tuples (splitRecordID rid).2.toNat t0 hget
          constructor
          · simp only [heapPage.occupied] at hused ⊢
            omega
          · simp only [List.length_set]
            exact hcount

theorem wfB_applyOps (h : heapPage) (ops : List PageOp) (hwf : h.wfB = true) :
    (h.applyOps ops).wfB = true := by
  induction ops generalizing h with
  | nil => exact hwf
  | cons op rest ih =>
    exact ih (h.applyOp op) (wfB_applyOp h op hwf)

/-- Claim C2: for every well-formed heap page and every sequence of
`insertTuple` and `deleteTuple` operations applied to it, after the sequence
(hence, by instantiating with every prefix, after each operation) `slotUsed`
equals the number of occupied slots and `0 ≤ slotUsed ≤ slotCount`. -/
theorem C2_heap_page_slot_used_invariant (h : heapPage) (ops : List PageOp)
    (hwf : h.wfB = true) :
    (h.applyOps ops).slotUsed = (((h.applyOps ops).occupied.length : Nat) : Int)
    ∧ 0 ≤ (h.applyOps ops).slotUsed
    ∧ (h.applyOps ops).slotUsed ≤ (h.applyOps ops).slotCount := by
  have hwf2 := wfB_applyOps h ops hwf
  simp only [heapPage.wfB, Bool.and_eq_true, beq_iff_eq] at hwf2
  obtain ⟨hused, hcount⟩ := hwf2
  refine ⟨hused, ?_, ?_⟩
  · rw [hused]; exact Int.ofNat_nonneg _
  · rw [hused, hcount]
    have hle : ((h.applyOps ops).occupied.length : Nat) ≤ (h.applyOps ops).tuples.length :=
      List.length_filterMap_le _ _
    exact_mod_cast hle

/-- Witness for claim C2 at a concrete page and operation sequence. -/
theorem C2_heap_page_slot_used_invariant_witness :
    samplePage.wfB = true
    ∧ ((samplePage.applyOps [.ins (sampleTuple 42), .del ⟨0, 0⟩]).slotUsed
        = (((samplePage.applyOps [.ins (sampleTuple 42), .del ⟨0, 0⟩]).occupied.length : Nat) : Int)
      ∧ 0 ≤ (samplePage.applyOps [.ins (sampleTuple 42), .del ⟨0, 0⟩]).slotUsed
      ∧ (samplePage.applyOps [.ins (sampleTuple 42), .del ⟨0, 0⟩]).slotUsed
        ≤ (samplePage.applyOps [.ins (sampleTuple 42), .del ⟨0, 0⟩]).slotCount) :=
  ⟨by decide, C2_heap_page_slot_used_invariant samplePage [.ins (sampleTuple 42), .del ⟨0, 0⟩] (by decide)⟩

/-- Descriptor of the Insert and Delete operator output: one integer column
named count (`InsertOp.Descriptor`, `DeleteOp.Descriptor`). -/
def countDesc : TupleDesc := ⟨[⟨"count", "", .IntType⟩]⟩

/-- Drain loop of `InsertOp.Iterator`: pull child tuples in order, insert
each into the sink file, count the successes; an insert error aborts the
call.  The sink file is the `DBFile` interface value of the operator and is
embedded as its `insertTuple` state transformer. -/
def insertDrain {σ : Type} (insertFile : σ → Tuple → Except GoDBError σ) :
    List Tuple → σ → Int → Except GoDBError (σ × Int)
  | [], s, n => .ok (s, n)
  | t :: ts, s, n =>
    match insertFile s t with
    | .error e => .error e
    | .ok s2 => insertDrain insertFile ts s2 (n + 1)

/-- One call of the iterator function returned by `InsertOp.Iterator`.  In
the Go code both the child iterator and the counter are local variables of
the call, so every call re-creates the child iterator, drains it again, and
emits a fresh count tuple; no state survives between calls. -/
def InsertOp.iterCall {σ : Type} (insertFile : σ → Tuple → Except GoDBError σ)
    (child : List Tuple) (s : σ) : Except GoDBError (Option Tuple × σ) :=
  match insertDrain insertFile child s 0 with
  | .error e => .error e
  | .ok (s2, n) => .ok (some ⟨countDesc, [.IntField n], none⟩, s2)

/-- Drain loop of `DeleteOp.Iterator`, structurally identical to the insert
drain but calling `deleteTuple`. -/
def deleteDrain {σ : Type} (deleteFile : σ → Tuple → Except GoDBError σ) :
    List Tuple → σ → Int → Except GoDBError (σ × Int)
  | [], s, n => .ok (s, n)
  | t :: ts, s, n =>
    match deleteFile s t with
    | .error e => .error e
    | .ok s2 => deleteDrain deleteFile ts s2 (n + 1)

/-- One call of the iterator function returned by `DeleteOp.Iterator`; like
the insert case, all state is local to the call. -/
def DeleteOp.iterCall {σ : Type} (deleteFile : σ → Tuple → Except GoDBError σ)
    (child : List Tuple) (s : σ) : Except GoDBError (Option Tuple × σ) :=
  match deleteDrain deleteFile child s 0 with
  | .error e => .error e
  | .ok (s2, n) => .ok (some ⟨countDesc, [.IntField n], none⟩, s2)

theorem insertDrain_count {σ : Type} (f : σ → Tuple → Except GoDBError σ) :
    ∀ (ts : List Tuple) (s : σ) (n : Int) (s2 : σ) (m : Int),
      insertDrain f ts s n = .ok (s2, m) → m = n + ts.length := by
  intro ts
  induction ts with
  | nil =>
    intro s n s2 m hdr
    simp [insertDrain] at hdr
    simp [hdr.2]
  | cons t ts ih =>
    intro s n s2 m hdr
    simp only [insertDrain] at hdr
    cases hf : f s t with
    | error e => rw [hf] at hdr; exact absurd hdr (by simp)
    | ok s3 =>
      rw [hf] at hdr
      have := ih s3 (n + 1) s2 m hdr
      simp [this]
      ring

theorem deleteDrain_count {σ : Type} (f : σ → Tuple → Except GoDBError σ) :
    ∀ (ts : List Tuple) (s : σ) (n : Int) (s2 : σ) (m : Int),
      deleteDrain f ts s n = .ok (s2, m) → m = n + ts.length := by
  intro ts
  induction ts with
  | nil =>
    intro s n s2 m hdr
    simp [deleteDrain] at hdr
    simp [hdr.2]
  | cons t ts ih =>
    intro s n s2 m hdr
    simp only [deleteDrain] at hdr
    cases hf : f s t with
    | error e => rw [hf] at hdr; exact absurd hdr (by simp)
    | ok s3 =>
      rw [hf] at hdr
      have := ih s3 (n + 1) s2 m hdr
      simp [this]
      ring

/-- Concrete sink used by the C3 counterexample and witness: the file is the
list of tuples handed to it so far, every insert succeeds. -/
def listSink (s : List Tuple) (t : Tuple) : Except GoDBError (List Tuple) := .ok (s ++ [t])

/-- Concrete one-tuple child stream for C3. -/
def demoChild : List Tuple := [sampleTuple 1]

/-- Counterexample for claim C3 as stated: the first call of the Insert
iterator emits the count tuple, but the second call of the same iterator
does not return end-of-stream; it re-creates the child iterator, re-inserts
the whole stream, and emits another count tuple (all call state is local to
the call). -/
theorem C3_counterexample_second_call_not_none :
    InsertOp.iterCall listSink demoChild []
      = .ok (some ⟨countDesc, [.IntField 1], none⟩, demoChild)
    ∧ InsertOp.iterCall listSink demoChild demoChild
      = .ok (some ⟨countDesc, [.IntField 1], none⟩, demoChild ++ demoChild) := by
  constructor
  · rfl
  · rfl

/-- Claim C3 (amended): every successful call of the Insert (resp. Delete)
iterator drains the freshly constructed child iterator, processing each
tuple via `insertTuple` (resp. `deleteTuple`), and emits exactly one tuple
with a single field count:int equal to the stream length n; subsequent calls
repeat this instead of returning end-of-stream. -/
theorem C3_sink_operators_emit_count {σ : Type}
    (insertFile deleteFile : σ → Tuple → Except GoDBError σ)
    (child : List Tuple) (s s' : σ) (resI resD : Option Tuple × σ)
    (hI : InsertOp.iterCall insertFile child s = .ok resI)
    (hD : DeleteOp.iterCall deleteFile child s' = .ok resD) :
    resI.1 = some ⟨countDesc, [.IntField (child.length : Int)], none⟩
    ∧ resD.1 = some ⟨countDesc, [.IntField (child.length : Int)], none⟩ := by
  constructor
  · simp only [InsertOp.iterCall] at hI
    cases hdr : insertDrain insertFile child s 0 with
    | error e => rw [hdr] at hI; exact absurd hI (by simp)
    | ok p =>
      rw [hdr] at hI
      obtain ⟨s2, n⟩ := p
      have hn := insertDrain_count insertFile child s 0 s2 n hdr
      simp only [Except.ok.injEq] at hI
      rw [← hI]
      simp [hn]
  · simp only [DeleteOp.iterCall] at hD
    cases hdr : deleteDrain deleteFile child s' 0 with
    | error e => rw [hdr] at hD; exact absurd hD (by simp)
    | ok p =>
      rw [hdr] at hD
      obtain ⟨s2, n⟩ := p
      have hn := deleteDrain_count deleteFile child s' 0 s2 n hdr
      simp only [Except.ok.injEq] at hD
      rw [← hD]
      simp [hn]

/-- Concrete delete sink for the C3 witness: deleting from the empty file
model leaves it empty. -/
def demoDelSink (s : List Tuple) (_ : Tuple) : Except GoDBError (List Tuple) := .ok s

/-- Witness for claim C3 at a concrete sink and child stream. -/
theorem C3_sink_operators_emit_count_witness :
    ((some (⟨countDesc, [.IntField 1], none⟩ : Tuple), demoChild) : Option Tuple × List Tuple).1
      = some ⟨countDesc, [.IntField (demoChild.length : Int)], none⟩
    ∧ ((some (⟨countDesc, [.IntField 1], none⟩ : Tuple), ([] : List Tuple))
        : Option Tuple × List Tuple).1
      = some ⟨countDesc, [.IntField (demoChild.length : Int)], none⟩ :=
  C3_sink_operators_emit_count listSink demoDelSink demoChild [] []
    (some ⟨countDesc, [.IntField 1], none⟩, demoChild)
    (some ⟨countDesc, [.IntField 1], none⟩, ([] : List Tuple))
    rfl rfl

/-- Comparator `sortTuples.Less` (OrderBy source): walk the key expressions
in positional order; an evaluation error on either side yields `false`
immediately; equal key values continue to the next key; otherwise the result
is less-than for an ascending key, negated for a descending one.
`NewOrderBy` rejects key/ascending lists of different lengths, so the
mismatched-length cases (where the Go code would index out of range) are
unreachable and rendered as `false`. -/
def sortLess : List Expr → List Bool → Tuple → Tuple → Bool
  | [], _, _, _ => false
  | _ :: _, [], _, _ => false
  | e :: es, asc :: ascs, a, b =>
    match e a, e b with
    | some va, some vb =>
      if va.EvalPred vb .OpEq then sortLess es ascs a b
      else
        let less := va.EvalPred vb .OpLt
        if (asc && less) || (!asc && !less) then true else false
    | _, _ => false

/-- Contract of the Go standard-library `sort.Sort` call in
`OrderBy.Iterator`: the buffer after sorting is a permutation of its former
contents that is sorted with respect to the comparator (for positions
i < j, Less(j, i) is false).  The Go documentation of `sort.Sort` states
that the sort is not guaranteed to be stable, so the call is modelled
relationally: any output satisfying this contract is a possible behavior. -/
def sortSortPost (less : Tuple → Tuple → Bool) (input output : List Tuple) : Prop :=
  output.Perm input ∧ output.Pairwise (fun a b => less b a = false)

/-- Possible emitted streams of `OrderBy.Iterator` on a child stream: the
iterator materializes all child tuples, sorts the buffer in place with
`sort.Sort` under `sortTuples.Less`, then emits the buffer in order. -/
def OrderByOutputs (orderBy : List Expr) (ascending : List Bool)
    (child output : List Tuple) : Prop :=
  sortSortPost (sortLess orderBy ascending) child output

/-- The lexicographic comparator in the words of the spec: for each key
position in order, compare expression values; if equal, continue to the next
key; else return the result of less-than, negated when descending. -/
def lexLessSpec : List (Expr × Bool) → Tuple → Tuple → Bool
  | [], _, _ => false
  | (e, asc) :: keys, a, b =>
    match e a, e b with
    | some va, some vb =>
      if va.EvalPred vb .OpEq then lexLessSpec keys a b
      else if asc then va.EvalPred vb .OpLt else !(va.EvalPred vb .OpLt)
    | _, _ => false

theorem sortLess_eq_lexLessSpec :
    ∀ (es : List Expr) (ascs : List Bool) (a b : Tuple),
      sortLess es ascs a b = lexLessSpec (es.zip ascs) a b := by
  intro es
  induction es with
  | nil => intro ascs a b; simp [sortLess, lexLessSpec]
  | cons e es ih =>
    intro ascs a b
    cases ascs with
    | nil => simp [sortLess, lexLessSpec]
    | cons asc ascs =>
      simp only [sortLess, List.zip_cons_cons, lexLessSpec]
      cases e a with
      | none => rfl
      | some va =>
        cases e b with
        | none => rfl
        | some vb =>
          simp only
          by_cases heq : va.EvalPred vb .OpEq = true
          · simp [heq, ih, List.zip]
          · simp only [Bool.not_eq_true] at heq
            cases asc <;> cases hlt : va.EvalPred vb .OpLt <;> simp [heq, hlt]

/-- Sample two-int-column descriptor for the OrderBy counterexample. -/
def sampleDesc2 : TupleDesc := ⟨[⟨"k1", "", .IntType⟩, ⟨"k2", "", .IntType⟩]⟩

/-- First tuple of the tied pair (key 1, payload 10). -/
def demoTupA : Tuple := ⟨sampleDesc2, [.IntField 1, .IntField 10], none⟩

/-- Second tuple of the tied pair (key 1, payload 20). -/
def demoTupB : Tuple := ⟨sampleDesc2, [.IntField 1, .IntField 20], none⟩

/-- Expression evaluating to the first field of a tuple. -/
def fstField : Expr := fun t => t.Fields.head?

/-- Counterexample for claim C4 as stated: sorting on the first field only,
the child stream [A, B] consists of two tuples with equal sort keys and
distinct payloads, and the reversed buffer [B, A] also satisfies the full
contract of the `sort.Sort` call (it is a sorted permutation).  Go documents
`sort.Sort` as not guaranteed stable (the repository does not use
`sort.Stable`), so the code admits an output in which tuples with equal sort
keys do not appear in their original child order: stability fails. -/
theorem C4_counterexample_unstable_output_allowed :
    OrderByOutputs [fstField] [true] [demoTupA, demoTupB] [demoTupB, demoTupA]
    ∧ sortLess [fstField] [true] demoTupA demoTupB = false
    ∧ sortLess [fstField] [true] demoTupB demoTupA = false
    ∧ [demoTupB, demoTupA] ≠ [demoTupA, demoTupB] := by
  refine ⟨⟨List.Perm.swap demoTupA demoTupB [], ?_⟩, by decide, by decide, by decide⟩
  decide

/-- Claim C4 (amended): the OrderBy iterator materializes all child tuples
and emits a permutation of them sorted under the lexicographic comparator
over the sort expressions (per key: equal continues to the next key,
otherwise less-than, negated when the key is descending); stability is not
guaranteed, because the code sorts with the unstable `sort.Sort`. -/
theorem C4_orderby_sorted_lexicographic (orderBy : List Expr)
    (ascending : List Bool) (child output : List Tuple)
    (h : OrderByOutputs orderBy ascending child output) :
    output.Perm child
    ∧ output.Pairwise
        (fun a b => lexLessSpec (orderBy.zip ascending) b a = false) := by
  obtain ⟨hperm, hsort⟩ := h
  refine ⟨hperm, ?_⟩
  refine hsort.imp ?_
  intro a b hab
  rw [← sortLess_eq_lexLessSpec]
  exact hab

/-- Witness for claim C4 at a concrete sorted output. -/
theorem C4_orderby_sorted_lexicographic_witness :
    ([demoTupA, demoTupB] : List Tuple).Perm [demoTupA, demoTupB]
    ∧ ([demoTupA, demoTupB] : List Tuple).Pairwise
        (fun a b => lexLessSpec ([fstField].zip [true]) b a = false) :=
  C4_orderby_sorted_lexicographic [fstField] [true] [demoTupA, demoTupB]
    [demoTupA, demoTupB] ⟨List.Perm.refl _, by decide⟩

/-- Aggregation state for COUNT (`CountAggState`): `AddTuple` increments the
counter unconditionally, without evaluating the expression.  The Go `alias`
field is named `aggAlias` here.  The Go `int` counter is bounded by the
stream length and modelled unbounded. -/
structure CountAggState where
  aggAlias : String
  expr : Expr
  count : Int

/-- Increment on every added tuple (`CountAggState.AddTuple`). -/
def CountAggState.AddTuple (a : CountAggState) (_ : Tuple) : CountAggState :=
  { a with count := a.count + 1 }

/-- Single integer column named by the alias (`CountAggState.GetTupleDesc`). -/
def CountAggState.GetTupleDesc (a : CountAggState) : TupleDesc :=
  ⟨[⟨a.aggAlias, "", .IntType⟩]⟩

/-- Result tuple of COUNT (`CountAggState.Finalize`). -/
def CountAggState.Finalize (a : CountAggState) : Tuple :=
  ⟨a.GetTupleDesc, [.IntField a.count], none⟩

/-- Aggregation state for SUM (`SumAggState`): the running sum is a Go int64
and wraps on overflow. -/
structure SumAggState where
  aggAlias : String
  expr : Expr
  sum : Int

/-- Evaluate the expression; on error or a non-integer result return without
changes, otherwise add the value into the wrapping int64 sum
(`SumAggState.AddTuple`). -/
def SumAggState.AddTuple (a : SumAggState) (t : Tuple) : SumAggState :=
  match a.expr t with
  | none => a
  | some (.IntField v) => { a with sum := wrap64 (a.sum + v) }
  | some (.StringField _) => a

/-- Single integer column named by the alias (`SumAggState.GetTupleDesc`). -/
def SumAggState.GetTupleDesc (a : SumAggState) : TupleDesc :=
  ⟨[⟨a.aggAlias, "", .IntType⟩]⟩

/-- Result tuple of SUM (`SumAggState.Finalize`). -/
def SumAggState.Finalize (a : SumAggState) : Tuple :=
  ⟨a.GetTupleDesc, [.IntField a.sum], none⟩

/-- Aggregation state for AVG (`AvgAggState`): wrapping int64 sum plus a
count of the integer results. -/
structure AvgAggState where
  aggAlias : String
  expr : Expr
  sum : Int
  count : Int

/-- On an integer result add to the sum and increment the count; otherwise
return unchanged (`AvgAggState.AddTuple`). -/
def AvgAggState.AddTuple (a : AvgAggState) (t : Tuple) : AvgAggState :=
  match a.expr t with
  | none => a
  | some (.IntField v) => { a with sum := wrap64 (a.sum + v), count := a.count + 1 }
  | some (.StringField _) => a

/-- Single integer column named by the alias (`AvgAggState.GetTupleDesc`). -/
def AvgAggState.GetTupleDesc (a : AvgAggState) : TupleDesc :=
  ⟨[⟨a.aggAlias, "", .IntType⟩]⟩

/-- Result tuple of AVG (`AvgAggState.Finalize`): Go `/` on int64 truncates
toward zero, which is `Int.tdiv`.  Go panics when the count is zero; the
source comments guarantee at least one added tuple. -/
def AvgAggState.Finalize (a : AvgAggState) : Tuple :=
  ⟨a.GetTupleDesc, [.IntField (Int.tdiv a.sum a.count)], none⟩

/-- Aggregation state for MAX (`MaxAggState`): the current extreme is a raw
`DBValue`, `nil` (`none`) before the first successful evaluation. -/
structure MaxAggState where
  aggAlias : String
  expr : Expr
  max : Option DBValue

/-- The first successful evaluation sets the extreme; later ones replace it
when strictly greater under `EvalPred OpGt` (`MaxAggState.AddTuple`). -/
def MaxAggState.AddTuple (a : MaxAggState) (t : Tuple) : MaxAggState :=
  match a.expr t with
  | none => a
  | some v =>
    match a.max with
    | none => { a with max := some v }
    | some m => if v.EvalPred m .OpGt then { a with max := some v } else a

/-- Single integer column named by the alias regardless of the expression
type (`MaxAggState.GetTupleDesc`). -/
def MaxAggState.GetTupleDesc (a : MaxAggState) : TupleDesc :=
  ⟨[⟨a.aggAlias, "", .IntType⟩]⟩

/-- Result tuple of MAX (`MaxAggState.Finalize`): the raw stored value is
placed under the integer descriptor.  Go returns a tuple holding a nil
`DBValue` when nothing was ever added; that degenerate tuple is modelled as
`none`. -/
def MaxAggState.Finalize (a : MaxAggState) : Option Tuple :=
  a.max.map fun m => ⟨a.GetTupleDesc, [m], none⟩

/-- Aggregation state for MIN (`MinAggState`). -/
structure MinAggState where
  aggAlias : String
  expr : Expr
  min : Option DBValue

/-- The first successful evaluation sets the extreme; later ones replace it
when strictly smaller under `EvalPred OpLt` (`MinAggState.AddTuple`). -/
def MinAggState.AddTuple (a : MinAggState) (t : Tuple) : MinAggState :=
  match a.expr t with
  | none => a
  | some v =>
    match a.min with
    | none => { a with min := some v }
    | some m => if v.EvalPred m .OpLt then { a with min := some v } else a

/-- Single integer column named by the alias regardless of the expression
type (`MinAggState.GetTupleDesc`). -/
def MinAggState.GetTupleDesc (a : MinAggState) : TupleDesc :=
  ⟨[⟨a.aggAlias, "", .IntType⟩]⟩

/-- Result tuple of MIN (`MinAggState.Finalize`), as for MAX. -/
def MinAggState.Finalize (a : MinAggState) : Option Tuple :=
  a.min.map fun m => ⟨a.GetTupleDesc, [m], none⟩

/-- Integer results of the expression over a stream, in stream order:
the successful evaluations that return an integer (errors and string
results are skipped, as the Sum and Avg accumulators do). -/
def intResults (e : Expr) (ts : List Tuple) : List Int :=
  ts.filterMap fun t =>
    match e t with
    | some (.IntField v) => some v
    | _ => none

/-- Whether no successful evaluation over the stream returns a string; the
Min/Max order relation of the claim is only meaningful within one variant. -/
def allIntB (e : Expr) (ts : List Tuple) : Bool :=
  ts.all fun t =>
    match e t with
    | some (.StringField _) => false
    | _ => true

theorem wrap64_wrap64 (n : Int) : wrap64 (wrap64 n) = wrap64 n := by
  unfold wrap64; omega

theorem wrap64_add_left (a b : Int) : wrap64 (wrap64 a + b) = wrap64 (a + b) := by
  unfold wrap64; omega

theorem countFold_state : ∀ (ts : List Tuple) (a : CountAggState),
    ts.foldl CountAggState.AddTuple a = { a with count := a.count + ts.length } := by
  intro ts
  induction ts with
  | nil => intro a; simp
  | cons t ts ih =>
    intro a
    rw [List.foldl_cons, ih]
    simp only [CountAggState.AddTuple]
    congr 1
    simp only [List.length_cons]
    push_cast
    ring

theorem sumFold_sum : ∀ (ts : List Tuple) (a : SumAggState), wrap64 a.sum = a.sum →
    (ts.foldl SumAggState.AddTuple a).sum = wrap64 (a.sum + (intResults a.expr ts).sum) := by
  intro ts
  induction ts with
  | nil => intro a h; simp [intResults, h]
  | cons t ts ih =>
    intro a h
    rw [List.foldl_cons]
    cases he : a.expr t with
    | none =>
      have hstep : SumAggState.AddTuple a t = a := by simp [SumAggState.AddTuple, he]
      rw [hstep, ih a h]
      simp [intResults, List.filterMap_cons, he]
    | some v =>
      cases v with
      | StringField s =>
        have hstep : SumAggState.AddTuple a t = a := by simp [SumAggState.AddTuple, he]
        rw [hstep, ih a h]
        simp [intResults, List.filterMap_cons, he]
      | IntField n =>
        have hstep : SumAggState.AddTuple a t = { a with sum := wrap64 (a.sum + n) } := by
          simp [SumAggState.AddTuple, he]
        rw [hstep, ih _ (wrap64_wrap64 _)]
        have hthis : intResults a.expr (t :: ts) = n :: intResults a.expr ts := by
          simp [intResults, List.filterMap_cons, he]
        simp only [hthis, List.sum_cons]
        rw [wrap64_add_left]
        ring_nf

theorem sumFold_aggAlias : ∀ (ts : List Tuple) (a : SumAggState),
    (ts.foldl SumAggState.AddTuple a).aggAlias = a.aggAlias := by
  intro ts
  induction ts with
  | nil => intro a; rfl
  | cons t ts ih =>
    intro a
    rw [List.foldl_cons, ih]
    unfold SumAggState.AddTuple
    cases a.expr t with
    | none => rfl
    | some v => cases v <;> rfl

theorem avgFold_spec : ∀ (ts : List Tuple) (a : AvgAggState), wrap64 a.sum = a.sum →
    (ts.foldl AvgAggState.AddTuple a).sum = wrap64 (a.sum + (intResults a.expr ts).sum)
    ∧ (ts.foldl AvgAggState.AddTuple a).count = a.count + (intResults a.expr ts).length
    ∧ (ts.foldl AvgAggState.AddTuple a).aggAlias = a.aggAlias := by
  intro ts
  induction ts with
  | nil => intro a h; simp [intResults, h]
  | cons t ts ih =>
    intro a h
    rw [List.foldl_cons]
    cases he : a.expr t with
    | none =>
      have hstep : AvgAggState.AddTuple a t = a := by simp [AvgAggState.AddTuple, he]
      rw [hstep]
      obtain ⟨ih1, ih2, ih3⟩ := ih a h
      refine ⟨?_, ?_, ih3⟩ <;>
        simp [ih1, ih2, intResults, List.filterMap_cons, he]
    | some v =>
      cases v with
      | StringField s =>
        have hstep : AvgAggState.AddTuple a t = a := by simp [AvgAggState.AddTuple, he]
        rw [hstep]
        obtain ⟨ih1, ih2, ih3⟩ := ih a h
        refine ⟨?_, ?_, ih3⟩ <;>
          simp [ih1, ih2, intResults, List.filterMap_cons, he]
      | IntField n =>
        have hstep : AvgAggState.AddTuple a t
            = { a with sum := wrap64 (a.sum + n), count := a.count + 1 } := by
          simp [AvgAggState.AddTuple, he]
        rw [hstep]
        obtain ⟨ih1, ih2, ih3⟩ := ih { a with sum := wrap64 (a.sum + n), count := a.count + 1 }
          (wrap64_wrap64 _)
        have hthis : intResults a.expr (t :: ts) = n :: intResults a.expr ts := by
          simp [intResults, List.filterMap_cons, he]
        refine ⟨?_, ?_, ih3⟩
        · rw [ih1]
          simp only [hthis, List.sum_cons]
          rw [wrap64_add_left]
          ring_nf
        · rw [ih2]
          simp only [hthis, List.length_cons]
          push_cast
          ring

theorem maxFold_some : ∀ (ts : List Tuple) (a : MaxAggState) (c : Int),
    a.max = some (.IntField c) → allIntB a.expr ts = true →
    (ts.foldl MaxAggState.AddTuple a).max
      = some (.IntField ((intResults a.expr ts).foldl max c)) := by
  intro ts
  induction ts with
  | nil => intro a c hmax hall; simpa [intResults] using hmax
  | cons t ts ih =>
    intro a c hmax hall
    simp only [allIntB, List.all_cons, Bool.and_eq_true] at hall
    obtain ⟨hall1, hall2⟩ := hall
    rw [List.foldl_cons]
    cases he : a.expr t with
    | none =>
      have hstep : MaxAggState.AddTuple a t = a := by simp [MaxAggState.AddTuple, he]
      have hthis : intResults a.expr (t :: ts) = intResults a.expr ts := by
        simp [intResults, List.filterMap_cons, he]
      rw [hstep, hthis]
      exact ih a c hmax hall2
    | some v =>
      cases v with
      | StringField s => rw [he] at hall1; simp at hall1
      | IntField n =>
        have hthis : intResults a.expr (t :: ts) = n :: intResults a.expr ts := by
          simp [intResults, List.filterMap_cons, he]
        rw [hthis, List.foldl_cons]
        by_cases hcn : c < n
        · have hstep : MaxAggState.AddTuple a t = { a with max := some (.IntField n) } := by
            simp [MaxAggState.AddTuple, he, hmax, DBValue.EvalPred, hcn]
          rw [hstep, max_eq_right (le_of_lt hcn)]
          exact ih _ n rfl hall2
        · have hstep : MaxAggState.AddTuple a t = a := by
            simp [MaxAggState.AddTuple, he, hmax, DBValue.EvalPred, hcn]
          rw [hstep, max_eq_left (not_lt.mp hcn)]
          exact ih a c hmax hall2

theorem maxFold_none : ∀ (ts : List Tuple) (a : MaxAggState),
    a.max = none → allIntB a.expr ts = true →
    (ts.foldl MaxAggState.AddTuple a).max
      = (match intResults a.expr ts with
         | [] => none
         | x :: xs => some (.IntField (xs.foldl max x))) := by
  intro ts
  induction ts with
  | nil => intro a hmax hall; simpa [intResults] using hmax
  | cons t ts ih =>
    intro a hmax hall
    simp only [allIntB, List.all_cons, Bool.and_eq_true] at hall
    obtain ⟨hall1, hall2⟩ := hall
    rw [List.foldl_cons]
    cases he : a.expr t with
    | none =>
      have hstep : MaxAggState.AddTuple a t = a := by simp [MaxAggState.AddTuple, he]
      have hthis : intResults a.expr (t :: ts) = intResults a.expr ts := by
        simp [intResults, List.filterMap_cons, he]
      rw [hstep, hthis]
      exact ih a hmax hall2
    | some v =>
      cases v with
      | StringField s => rw [he] at hall1; simp at hall1
      | IntField n =>
        have hstep : MaxAggState.AddTuple a t = { a with max := some (.IntField n) } := by
          simp [MaxAggState.AddTuple, he, hmax]
        have hthis : intResults a.expr (t :: ts) = n :: intResults a.expr ts := by
          simp [intResults, List.filterMap_cons, he]
        rw [hstep, hthis]
        exact maxFold_some ts _ n rfl hall2

theorem minFold_some : ∀ (ts : List Tuple) (a : MinAggState) (c : Int),
    a.min = some (.IntField c) → allIntB a.expr ts = true →
    (ts.foldl MinAggState.AddTuple a).min
      = some (.IntField ((intResults a.expr ts).foldl min c)) := by
  intro ts
  induction ts with
  | nil => intro a c hmin hall; simpa [intResults] using hmin
  | cons t ts ih =>
    intro a c hmin hall
    simp only [allIntB, List.all_cons, Bool.and_eq_true] at hall
    obtain ⟨hall1, hall2⟩ := hall
    rw [List.foldl_cons]
    cases he : a.expr t with
    | none =>
      have hstep : MinAggState.AddTuple a t = a := by simp [MinAggState.AddTuple, he]
      have hthis : intResults a.expr (t :: ts) = intResults a.expr ts := by
        simp [intResults, List.filterMap_cons, he]
      rw [hstep, hthis]
      exact ih a c hmin hall2
    | some v =>
      cases v with
      | StringField s => rw [he] at hall1; simp at hall1
      | IntField n =>
        have hthis : intResults a.expr (t :: ts) = n :: intResults a.expr ts := by
          simp [intResults, List.filterMap_cons, he]
        rw [hthis, List.foldl_cons]
        by_cases hcn : n < c
        · have hstep : MinAggState.AddTuple a t = { a with min := some (.IntField n) } := by
            simp [MinAggState.AddTuple, he, hmin, DBValue.EvalPred, hcn]
          rw [hstep, min_eq_right (le_of_lt hcn)]
          exact ih _ n rfl hall2
        · have hstep : MinAggState.AddTuple a t = a := by
            simp [MinAggState.AddTuple, he, hmin, DBValue.EvalPred, hcn]
          rw [hstep, min_eq_left (not_lt.mp hcn)]
          exact ih a c hmin hall2

theorem minFold_none : ∀ (ts : List Tuple) (a : MinAggState),
    a.min = none → allIntB a.expr ts = true →
    (ts.foldl MinAggState.AddTuple a).min
      = (match intResults a.expr ts with
         | [] => none
         | x :: xs => some (.IntField (xs.foldl min x))) := by
  intro ts
  induction ts with
  | nil => intro a hmin hall; simpa [intResults] using hmin
  | cons t ts ih =>
    intro a hmin hall
    simp only [allIntB, List.all_cons, Bool.and_eq_true] at hall
    obtain ⟨hall1, hall2⟩ := hall
    rw [List.foldl_cons]
    cases he : a.expr t with
    | none =>
      have hstep : MinAggState.AddTuple a t = a := by simp [MinAggState.AddTuple, he]
      have hthis : intResults a.expr (t :: ts) = intResults a.expr ts := by
        simp [intResults, List.filterMap_cons, he]
      rw [hstep, hthis]
      exact ih a hmin hall2
    | some v =>
      cases v with
      | StringField s => rw [he] at hall1; simp at hall1
      | IntField n =>
        have hstep : MinAggState.AddTuple a t = { a with min := some (.IntField n) } := by
          simp [MinAggState.AddTuple, he, hmin]
        have hthis : intResults a.expr (t :: ts) = n :: intResults a.expr ts := by
          simp [intResults, List.filterMap_cons, he]
        rw [hstep, hthis]
        exact minFold_some ts _ n rfl hall2

theorem maxFold_aggAlias : ∀ (ts : List Tuple) (a : MaxAggState),
    (ts.foldl MaxAggState.AddTuple a).aggAlias = a.aggAlias := by
  intro ts
  induction ts with
  | nil => intro a; rfl
  | cons t ts ih =>
    intro a
    rw [List.foldl_cons, ih]
    unfold MaxAggState.AddTuple
    cases a.expr t with
    | none => rfl
    | some v =>
      cases a.max with
      | none => rfl
      | some m =>
        by_cases hp : v.EvalPred m .OpGt = true <;> simp [hp]

theorem minFold_aggAlias : ∀ (ts : List Tuple) (a : MinAggState),
    (ts.foldl MinAggState.AddTuple a).aggAlias = a.aggAlias := by
  intro ts
  induction ts with
  | nil => intro a; rfl
  | cons t ts ih =>
    intro a
    rw [List.foldl_cons, ih]
    unfold MinAggState.AddTuple
    cases a.expr t with
    | none => rfl
    | some v =>
      cases a.min with
      | none => rfl
      | some m =>
        by_cases hp : v.EvalPred m .OpLt = true <;> simp [hp]

theorem foldl_max_facts : ∀ (xs : List Int) (c : Int),
    (xs.foldl max c = c ∨ xs.foldl max c ∈ xs)
    ∧ c ≤ xs.foldl max c ∧ ∀ v ∈ xs, v ≤ xs.foldl max c := by
  intro xs
  induction xs with
  | nil => intro c; simp
  | cons x xs ih =>
    intro c
    rw [List.foldl_cons]
    obtain ⟨hmem, hle, hall⟩ := ih (max c x)
    refine ⟨?_, le_trans (le_max_left c x) hle, ?_⟩
    · rcases hmem with h | h
      · rcases le_or_lt x c with hxc | hxc
        · left; rw [h, max_eq_left hxc]
        · right
          rw [h, max_eq_right (le_of_lt hxc)]
          exact List.mem_cons_self x xs
      · right; exact List.mem_cons_of_mem x h
    · intro v hv
      rcases List.mem_cons.mp hv with rfl | hv
      · exact le_trans (le_max_right c v) hle
      · exact hall v hv

theorem foldl_min_facts : ∀ (xs : List Int) (c : Int),
    (xs.foldl min c = c ∨ xs.foldl min c ∈ xs)
    ∧ xs.foldl min c ≤ c ∧ ∀ v ∈ xs, xs.foldl min c ≤ v := by
  intro xs
  induction xs with
  | nil => intro c; simp
  | cons x xs ih =>
    intro c
    rw [List.foldl_cons]
    obtain ⟨hmem, hle, hall⟩ := ih (min c x)
    refine ⟨?_, le_trans hle (min_le_left c x), ?_⟩
    · rcases hmem with h | h
      · rcases le_or_lt c x with hxc | hxc
        · left; rw [h, min_eq_left hxc]
        · right
          rw [h, min_eq_right (le_of_lt hxc)]
          exact List.mem_cons_self x xs
      · right; exact List.mem_cons_of_mem x h
    · intro v hv
      rcases List.mem_cons.mp hv with rfl | hv
      · exact le_trans hle (min_le_right c v)
      · exact hall v hv

/-- Counterexample for claim C5 as stated, at explicit concrete streams:
(a) Avg uses Go division, which truncates toward zero, not the floor
⌊Σ/n⌋: on the integer values [-1, -2] the accumulator finalizes to -1 while
⌊-3/2⌋ = -2; (b) Sum adds in a 64-bit register and wraps: on the values
[2^63 - 1, 1] the accumulator finalizes to -2^63 while Σ = 2^63. -/
theorem C5_counterexample_avg_truncates_sum_wraps :
    (([sampleTuple (-1), sampleTuple (-2)].foldl AvgAggState.AddTuple
        ⟨"a", fstField, 0, 0⟩).Finalize).Fields = [.IntField (-1)]
    ∧ Int.fdiv (intResults fstField [sampleTuple (-1), sampleTuple (-2)]).sum
        ((intResults fstField [sampleTuple (-1), sampleTuple (-2)]).length : Int) = -2
    ∧ (([sampleTuple (2 ^ 63 - 1), sampleTuple 1].foldl SumAggState.AddTuple
        ⟨"a", fstField, 0⟩).Finalize).Fields = [.IntField (-(2 ^ 63))]
    ∧ (intResults fstField [sampleTuple (2 ^ 63 - 1), sampleTuple 1]).sum = 2 ^ 63
    ∧ ((-1 : Int) ≠ -2 ∧ (-(2 ^ 63) : Int) ≠ 2 ^ 63) := by
  refine ⟨by decide, by decide, by decide, by decide, by decide, by decide⟩

/-- Claim C5 (amended): over any finite stream, starting from freshly
initialized accumulators: Count finalizes to the number of AddTuple calls
(incrementing even when the expression errors); Sum finalizes to the
int64-wrapped sum of the integer expression values (skipping errors and
non-integer results), equal to Σ whenever every partial sum fits int64;
Avg finalizes to the Go truncated division (toward zero) of that wrapped
sum by the number n of integer results; when all successful evaluations
are integers and at least one occurred, Max (resp. Min) finalizes to the
greatest (resp. least) of the integer values under the value order. -/
theorem C5_aggregate_states_reference (e : Expr) (al : String) (ts : List Tuple) :
    (ts.foldl CountAggState.AddTuple ⟨al, e, 0⟩).Finalize
      = ⟨⟨[⟨al, "", .IntType⟩]⟩, [.IntField (ts.length : Int)], none⟩
    ∧ (ts.foldl SumAggState.AddTuple ⟨al, e, 0⟩).Finalize
      = ⟨⟨[⟨al, "", .IntType⟩]⟩, [.IntField (wrap64 (intResults e ts).sum)], none⟩
    ∧ (ts.foldl AvgAggState.AddTuple ⟨al, e, 0, 0⟩).Finalize
      = ⟨⟨[⟨al, "", .IntType⟩]⟩,
          [.IntField (Int.tdiv (wrap64 (intResults e ts).sum)
            ((intResults e ts).length : Int))], none⟩
    ∧ (allIntB e ts = true → intResults e ts ≠ [] →
        (∃ m, (ts.foldl MaxAggState.AddTuple ⟨al, e, none⟩).Finalize
            = some ⟨⟨[⟨al, "", .IntType⟩]⟩, [.IntField m], none⟩
          ∧ m ∈ intResults e ts ∧ ∀ v ∈ intResults e ts, v ≤ m)
        ∧ (∃ m, (ts.foldl MinAggState.AddTuple ⟨al, e, none⟩).Finalize
            = some ⟨⟨[⟨al, "", .IntType⟩]⟩, [.IntField m], none⟩
          ∧ m ∈ intResults e ts ∧ ∀ v ∈ intResults e ts, m ≤ v)) := by
  refine ⟨?_, ?_, ?_, ?_⟩
  · rw [countFold_state]
    simp [CountAggState.Finalize, CountAggState.GetTupleDesc]
  · have h1 : (ts.foldl SumAggState.AddTuple ⟨al, e, 0⟩).sum
        = wrap64 (0 + (intResults e ts).sum) :=
      sumFold_sum ts ⟨al, e, 0⟩ (show wrap64 (0 : Int) = 0 by unfold wrap64; omega)
    have h2 : (ts.foldl SumAggState.AddTuple ⟨al, e, 0⟩).aggAlias = al :=
      sumFold_aggAlias ts ⟨al, e, 0⟩
    rw [zero_add] at h1
    simp [SumAggState.Finalize, SumAggState.GetTupleDesc, h1, h2]
  · have h := avgFold_spec ts ⟨al, e, 0, 0⟩ (show wrap64 (0 : Int) = 0 by unfold wrap64; omega)
    have h1 : (ts.foldl AvgAggState.AddTuple ⟨al, e, 0, 0⟩).sum
        = wrap64 (0 + (intResults e ts).sum) := h.1
    have h2 : (ts.foldl AvgAggState.AddTuple ⟨al, e, 0, 0⟩).count
        = 0 + ((intResults e ts).length : Int) := h.2.1
    have h3 : (ts.foldl AvgAggState.AddTuple ⟨al, e, 0, 0⟩).aggAlias = al := h.2.2
    rw [zero_add] at h1 h2
    simp [AvgAggState.Finalize, AvgAggState.GetTupleDesc, h1, h2, h3]
  · intro hall hne
    constructor
    · cases hres : intResults e ts with
      | nil => exact absurd hres hne
      | cons x xs =>
        have hmax : (ts.foldl MaxAggState.AddTuple ⟨al, e, none⟩).max
            = (match intResults e ts with
               | [] => none
               | y :: ys => some (.IntField (ys.foldl max y))) :=
          maxFold_none ts ⟨al, e, none⟩ rfl hall
        rw [hres] at hmax
        have hal : (ts.foldl MaxAggState.AddTuple ⟨al, e, none⟩).aggAlias = al :=
          maxFold_aggAlias ts ⟨al, e, none⟩
        obtain ⟨hmem, hle, hallv⟩ := foldl_max_facts xs x
        refine ⟨xs.foldl max x, ?_, ?_, ?_⟩
        · simp [MaxAggState.Finalize, MaxAggState.GetTupleDesc, hmax, hal]
        · rcases hmem with h | h
          · rw [h]; exact List.mem_cons_self x xs
          · exact List.mem_cons_of_mem x h
        · intro v hv
          rcases List.mem_cons.mp hv with rfl | hv2
          · exact hle
          · exact hallv v hv2
    · cases hres : intResults e ts with
      | nil => exact absurd hres hne
      | cons x xs =>
        have hmin : (ts.foldl MinAggState.AddTuple ⟨al, e, none⟩).min
            = (match intResults e ts with
               | [] => none
               | y :: ys => some (.IntField (ys.foldl min y))) :=
          minFold_none ts ⟨al, e, none⟩ rfl hall
        rw [hres] at hmin
        have hal : (ts.foldl MinAggState.AddTuple ⟨al, e, none⟩).aggAlias = al :=
          minFold_aggAlias ts ⟨al, e, none⟩
        obtain ⟨hmem, hle, hallv⟩ := foldl_min_facts xs x
        refine ⟨xs.foldl min x, ?_, ?_, ?_⟩
        · simp [MinAggState.Finalize, MinAggState.GetTupleDesc, hmin, hal]
        · rcases hmem with h | h
          · rw [h]; exact List.mem_cons_self x xs
          · exact List.mem_cons_of_mem x h
        · intro v hv
          rcases List.mem_cons.mp hv with rfl | hv2
          · exact hle
          · exact hallv v hv2

/-- Witness for claim C5: although the top-level statement has no Prop
hypothesis, the Min/Max conjunct is guarded by two; this instantiates the
theorem at a concrete stream (with one erroring tuple) and discharges them. -/
theorem C5_aggregate_states_reference_witness :
    ∃ m, (([sampleTuple 3, ⟨sampleDesc, [], none⟩, sampleTuple 7].foldl
          MaxAggState.AddTuple ⟨"m", fstField, none⟩).Finalize
        = some ⟨⟨[⟨"m", "", .IntType⟩]⟩, [.IntField m], none⟩)
      ∧ m ∈ intResults fstField [sampleTuple 3, ⟨sampleDesc, [], none⟩, sampleTuple 7]
      ∧ ∀ v ∈ intResults fstField [sampleTuple 3, ⟨sampleDesc, [], none⟩, sampleTuple 7],
          v ≤ m :=
  (((C5_aggregate_states_reference fstField "m"
      [sampleTuple 3, ⟨sampleDesc, [], none⟩, sampleTuple 7]).2.2.2)
    (by decide) (by decide)).1

/-- Modelled from the spec: `joinTuples` concatenates the left tuple's
fields followed by the right tuple's fields, under the merged descriptor. -/
def joinTuples (l r : Tuple) : Tuple :=
  ⟨⟨l.Desc.Fields ++ r.Desc.Fields⟩, l.Fields ++ r.Fields, none⟩

/-- Pairs (left tuple, right tuple) matched by `EqualityJoin.Iterator`, in
emission order, for buffer size `m + 1` (the claim restricts to
maxBufferSize ≥ 1; with maxBufferSize = 0 the Go loop never terminates).
Per the Go control flow: `fillJoinBufMap` consumes up to maxBufferSize left
tuples into a map key → tuples in arrival order; the right operator is then
re-scanned from the start, and for each right tuple every matching buffered
left tuple is emitted in buffer order (the channel is FIFO); when the right
scan ends the next left block is loaded, until the left stream is
exhausted.  The key expressions are embedded as total functions, as the
claim presumes the key evaluations succeed. -/
def joinRunPairs (m : Nat) (lk rk : Tuple → DBValue) :
    List Tuple → List Tuple → List (Tuple × Tuple)
  | [], _ => []
  | l0 :: lrest, right =>
    let block := (l0 :: lrest).take (m + 1)
    (right.flatMap fun r => (block.filter fun l => lk l == rk r).map fun l => (l, r))
      ++ joinRunPairs m lk rk ((l0 :: lrest).drop (m + 1)) right
termination_by left _ => left.length
decreasing_by simp [List.length_drop]; omega

/-- Joined tuples emitted by `EqualityJoin.Iterator`, in emission order:
each matched pair is emitted as `joinTuples left right`. -/
def joinRun (m : Nat) (lk rk : Tuple → DBValue) :
    List Tuple → List Tuple → List Tuple
  | [], _ => []
  | l0 :: lrest, right =>
    let block := (l0 :: lrest).take (m + 1)
    (right.flatMap fun r =>
        (block.filter fun l => lk l == rk r).map fun l => joinTuples l r)
      ++ joinRun m lk rk ((l0 :: lrest).drop (m + 1)) right
termination_by left _ => left.length
decreasing_by simp [List.length_drop]; omega

theorem joinList_induction (m : Nat) (P : List Tuple → Prop)
    (h0 : P []) (hstep : ∀ l0 lrest, P (lrest.drop m) → P (l0 :: lrest)) :
    ∀ l, P l := by
  have key : ∀ (n : Nat) (l : List Tuple), l.length ≤ n → P l := by
    intro n
    induction n with
    | zero =>
      intro l hl
      cases l with
      | nil => exact h0
      | cons a b => simp at hl
    | succ n ih =>
      intro l hl
      cases l with
      | nil => exact h0
      | cons l0 lrest =>
        refine hstep l0 lrest (ih _ ?_)
        simp only [List.length_cons] at hl
        simp only [List.length_drop]
        omega
  intro l
  exact key l.length l le_rfl

theorem joinBlock_count (lk rk : Tuple → DBValue) (v : DBValue) (block : List Tuple) :
    ∀ right : List Tuple,
      ((right.flatMap fun r =>
          (block.filter fun l => lk l == rk r).map fun l => (l, r)).countP
        fun p => rk p.2 == v)
      = (block.countP fun l => lk l == v) * (right.countP fun r => rk r == v) := by
  intro right
  induction right with
  | nil => simp
  | cons r right ih =>
    rw [List.flatMap_cons, List.countP_append, ih, List.countP_map]
    by_cases hrv : rk r = v
    · have h1 : ((block.filter fun l => lk l == rk r).countP
          ((fun p => rk p.2 == v) ∘ fun l => (l, r)))
          = (block.filter fun l => lk l == rk r).length := by
        apply List.countP_eq_length.mpr
        intro x hx
        simp [hrv]
      rw [h1, hrv, ← List.countP_eq_length_filter]
      have h2 : (right.countP fun r2 => rk r2 == v) + 1
          = (r :: right).countP fun r2 => rk r2 == v := by
        simp [List.countP_cons, hrv]
      rw [← h2]
      ring
    · have h1 : ((block.filter fun l => lk l == rk r).countP
          ((fun p => rk p.2 == v) ∘ fun l => (l, r))) = 0 := by
        apply List.countP_eq_zero.mpr
        intro x hx
        simp [hrv]
      have h2 : ((r :: right).countP fun r2 => rk r2 == v)
          = right.countP fun r2 => rk r2 == v := by
        simp [List.countP_cons, hrv]
      rw [h1, h2]
      ring

theorem joinRunPairs_count (m : Nat) (lk rk : Tuple → DBValue)
    (right : List Tuple) (v : DBValue) :
    ∀ left, ((joinRunPairs m lk rk left right).countP fun p => rk p.2 == v)
      = (left.countP fun l => lk l == v) * (right.countP fun r => rk r == v) := by
  apply joinList_induction m
  · simp [joinRunPairs]
  · intro l0 lrest ih
    rw [joinRunPairs, List.countP_append, joinBlock_count, List.take_succ_cons,
      List.drop_succ_cons, ih]
    have hsplit : (l0 :: lrest).countP (fun l => lk l == v)
        = (l0 :: lrest.take m).countP (fun l => lk l == v)
          + (lrest.drop m).countP (fun l => lk l == v) := by
      conv in (l0 :: lrest) => rw [show l0 :: lrest = (l0 :: lrest.take m) ++ lrest.drop m by
        simp [List.take_append_drop]]
      rw [List.countP_append]
    rw [hsplit]
    ring

theorem joinRun_eq_map_pairs (m : Nat) (lk rk : Tuple → DBValue) (right : List Tuple) :
    ∀ left, joinRun m lk rk left right
      = (joinRunPairs m lk rk left right).map fun p => joinTuples p.1 p.2 := by
  apply joinList_induction m
  · simp [joinRun, joinRunPairs]
  · intro l0 lrest ih
    rw [joinRun, joinRunPairs, List.map_append, List.drop_succ_cons, ih]
    congr 1
    rw [List.map_flatMap]
    congr 1
    funext r
    rw [List.map_map]
    rfl

theorem joinRunPairs_matching (m : Nat) (lk rk : Tuple → DBValue) (right : List Tuple) :
    ∀ left, ∀ p ∈ joinRunPairs m lk rk left right, lk p.1 = rk p.2 := by
  apply joinList_induction m
  · simp [joinRunPairs]
  · intro l0 lrest ih p hp
    rw [joinRunPairs, List.mem_append] at hp
    rcases hp with hp | hp
    · rw [List.mem_flatMap] at hp
      obtain ⟨r, hr, hp⟩ := hp
      rw [List.mem_map] at hp
      obtain ⟨l, hl, rfl⟩ := hp
      rw [List.mem_filter] at hl
      simpa using hl.2
    · rw [List.drop_succ_cons] at hp
      exact ih p hp

/-- Claim C6: for buffer size m+1 (every maxBufferSize ≥ 1, block
boundaries falling anywhere), the equality join emits, for every key value
v, exactly |left[v]| * |right[v]| matched pairs with key v; every emitted
pair has equal left and right key; and the emitted tuple stream is exactly
the per-pair concatenation joinTuples (left fields then right fields). -/
theorem C6_equality_join_cross_product (m : Nat) (lk rk : Tuple → DBValue)
    (left right : List Tuple) (v : DBValue) :
    ((joinRunPairs m lk rk left right).countP fun p => rk p.2 == v)
      = (left.countP fun l => lk l == v) * (right.countP fun r => rk r == v)
    ∧ (∀ p ∈ joinRunPairs m lk rk left right, lk p.1 = rk p.2)
    ∧ joinRun m lk rk left right
      = (joinRunPairs m lk rk left right).map fun p => joinTuples p.1 p.2 :=
  ⟨joinRunPairs_count m lk rk right v left,
   joinRunPairs_matching m lk rk right left,
   joinRun_eq_map_pairs m lk rk right left⟩

/-- Total key function used by the C6 witness: the first field of the tuple
(defaulting on the empty tuple, which does not occur in the witness data). -/
def demoKey : Tuple → DBValue := fun t => t.Fields.headD (.IntField 0)

/-- Concrete page number 0 of the C7 witness file: two occupied slots. -/
def demoPage0 : heapPage :=
  ⟨0, false, sampleDesc, 2, 2,
    [some ⟨sampleDesc, [.IntField 1], some ⟨0, 0⟩⟩,
     some ⟨sampleDesc, [.IntField 2], some ⟨0, 1⟩⟩]⟩

/-- Concrete page number 1 of the C7 witness file: empty slot 0, occupied
slot 1. -/
def demoPage1 : heapPage :=
  ⟨1, false, sampleDesc, 2, 1,
    [none, some ⟨sampleDesc, [.IntField 3], some ⟨1, 1⟩⟩]⟩

/-- Witness instantiating claim C6 at the spec's S4 scenario with buffer
size 2, so that a block boundary falls inside the key-2 group of the left
stream {1, 2, 2, 3}; the right stream is {2, 2, 4}. -/
theorem C6_equality_join_cross_product_witness :
    ((joinRunPairs 1 demoKey demoKey
        [sampleTuple 1, sampleTuple 2, sampleTuple 2, sampleTuple 3]
        [sampleTuple 2, sampleTuple 2, sampleTuple 4]).countP
      fun p => demoKey p.2 == DBValue.IntField 2)
      = ([sampleTuple 1, sampleTuple 2, sampleTuple 2, sampleTuple 3].countP
          fun l => demoKey l == DBValue.IntField 2)
        * ([sampleTuple 2, sampleTuple 2, sampleTuple 4].countP
          fun r => demoKey r == DBValue.IntField 2) :=
  (C6_equality_join_cross_product 1 demoKey demoKey
    [sampleTuple 1, sampleTuple 2, sampleTuple 2, sampleTuple 3]
    [sampleTuple 2, sampleTuple 2, sampleTuple 4] (DBValue.IntField 2)).1

/-- Drained output of `HeapFile.Iterator` over the file's resident pages
(page number i holds `pages[i]`, `pageCount = pages.length`): the iterator
walks pages `0..pageCount-1` in order through the buffer pool, constructs
each page's `tupleIter` once (cached in `tupleIterMap`), drains it before
advancing `iterIndex`, and therefore yields the concatenation of the
per-page iterator outputs in page order. -/
def heapFileIterate (pages : List heapPage) : List Tuple :=
  pages.flatMap heapPage.tupleIterList

/-- Occupied (page, slot) positions of one slot array, slots numbered from
`i`, in ascending slot order. -/
def slotPositions (pageNo : Int) : Nat → List (Option Tuple) → List (Int × Int)
  | _, [] => []
  | i, none :: rest => slotPositions pageNo (i + 1) rest
  | i, some _ :: rest => (pageNo, (i : Int)) :: slotPositions pageNo (i + 1) rest

/-- Occupied (page, slot) positions of a page sequence, pages numbered from
`i`, in ascending (page, slot) order. -/
def filePositions : Int → List heapPage → List (Int × Int)
  | _, [] => []
  | i, p :: ps => slotPositions i 0 p.tuples ++ filePositions (i + 1) ps

/-- Each stored tuple carries the rid (pageNo, slot) of its slot, as issued
by `heapPage.insertTuple` and `initFromBuffer`. -/
def slotRidsWfB (pageNo : Int) : Nat → List (Option Tuple) → Bool
  | _, [] => true
  | i, none :: rest => slotRidsWfB pageNo (i + 1) rest
  | i, some t :: rest =>
    (t.Rid == some ⟨pageNo, (i : Int)⟩) && slotRidsWfB pageNo (i + 1) rest

/-- Well-formedness of the resident pages of a heap file whose pages are
numbered from `i`: every page is structurally well-formed and stores rids
matching its position. -/
def filePagesWfB : Int → List heapPage → Bool
  | _, [] => true
  | i, p :: ps => p.wfB && slotRidsWfB i 0 p.tuples && filePagesWfB (i + 1) ps

/-- Strict lexicographic order on (page, slot) positions. -/
def posLt (a b : Int × Int) : Prop := a.1 < b.1 ∨ (a.1 = b.1 ∧ a.2 < b.2)

theorem tupleIterList_eq_occupied (h : heapPage) (hwf : h.wfB = true) :
    h.tupleIterList = h.occupied := by
  unfold heapPage.tupleIterList
  by_cases h0 : h.slotUsed = 0
  · simp only [h0, if_true]
    simp only [heapPage.wfB, Bool.and_eq_true, beq_iff_eq] at hwf
    have : h.occupied.length = 0 := by omega
    exact (List.length_eq_zero.mp this).symm
  · simp [h0]

theorem occupied_rids : ∀ (l : List (Option Tuple)) (pageNo : Int) (i : Nat),
    slotRidsWfB pageNo i l = true →
    (l.filterMap id).map Tuple.Rid
      = (slotPositions pageNo i l).map fun q => some (⟨q.1, q.2⟩ : RecordID) := by
  intro l
  induction l with
  | nil => intro pageNo i h; rfl
  | cons a rest ih =>
    intro pageNo i h
    cases a with
    | none =>
      simp only [slotRidsWfB] at h
      simpa [List.filterMap_cons, slotPositions] using ih pageNo (i + 1) h
    | some t =>
      simp only [slotRidsWfB, Bool.and_eq_true, beq_iff_eq] at h
      obtain ⟨h1, h2⟩ := h
      simp [List.filterMap_cons, slotPositions, h1, ih pageNo (i + 1) h2]

theorem slotPositions_facts : ∀ (l : List (Option Tuple)) (pageNo : Int) (i : Nat),
    (∀ q ∈ slotPositions pageNo i l, q.1 = pageNo ∧ (i : Int) ≤ q.2)
    ∧ (slotPositions pageNo i l).Pairwise posLt := by
  intro l
  induction l with
  | nil => intro pageNo i; simp [slotPositions]
  | cons a rest ih =>
    intro pageNo i
    cases a with
    | none =>
      obtain ⟨hmem, hpw⟩ := ih pageNo (i + 1)
      refine ⟨?_, by simpa [slotPositions] using hpw⟩
      intro q hq
      simp only [slotPositions] at hq
      obtain ⟨hq1, hq2⟩ := hmem q hq
      refine ⟨hq1, ?_⟩
      push_cast at hq2 ⊢
      omega
    | some t =>
      obtain ⟨hmem, hpw⟩ := ih pageNo (i + 1)
      constructor
      · intro q hq
        simp only [slotPositions, List.mem_cons] at hq
        rcases hq with rfl | hq
        · exact ⟨rfl, le_refl _⟩
        · obtain ⟨hq1, hq2⟩ := hmem q hq
          refine ⟨hq1, ?_⟩
          push_cast at hq2 ⊢
          omega
      · simp only [slotPositions, List.pairwise_cons]
        refine ⟨?_, hpw⟩
        intro q hq
        obtain ⟨hq1, hq2⟩ := hmem q hq
        right
        refine ⟨hq1.symm, ?_⟩
        push_cast at hq2 ⊢
        omega

theorem filePositions_facts : ∀ (ps : List heapPage) (i : Int),
    (∀ q ∈ filePositions i ps, i ≤ q.1)
    ∧ (filePositions i ps).Pairwise posLt := by
  intro ps
  induction ps with
  | nil => intro i; simp [filePositions]
  | cons p ps ih =>
    intro i
    obtain ⟨ihmem, ihpw⟩ := ih (i + 1)
    obtain ⟨smem, spw⟩ := slotPositions_facts p.tuples i 0
    constructor
    · intro q hq
      simp only [filePositions, List.mem_append] at hq
      rcases hq with hq | hq
      · exact le_of_eq (smem q hq).1.symm
      · have := ihmem q hq
        omega
    · simp only [filePositions]
      rw [List.pairwise_append]
      refine ⟨spw, ihpw, ?_⟩
      intro a ha b hb
      have ha1 := (smem a ha).1
      have hb1 := ihmem b hb
      left
      omega

theorem heapFileIterate_spec : ∀ (pages : List heapPage) (i : Int),
    filePagesWfB i pages = true →
    pages.flatMap heapPage.tupleIterList = pages.flatMap heapPage.occupied
    ∧ (pages.flatMap heapPage.tupleIterList).map Tuple.Rid
      = (filePositions i pages).map fun q => some (⟨q.1, q.2⟩ : RecordID) := by
  intro pages
  induction pages with
  | nil => intro i h; exact ⟨rfl, rfl⟩
  | cons p ps ih =>
    intro i h
    simp only [filePagesWfB, Bool.and_eq_true] at h
    obtain ⟨⟨hwf, hrids⟩, hrest⟩ := h
    obtain ⟨ih1, ih2⟩ := ih (i + 1) hrest
    have hocc := tupleIterList_eq_occupied p hwf
    constructor
    · simp only [List.flatMap_cons, hocc, ih1]
    · simp only [List.flatMap_cons, List.map_append, hocc, ih2, filePositions]
      congr 1
      exact occupied_rids p.tuples i 0 hrids

/-- Claim C7: over the resident pages of a well-formed heap file, the heap
file iterator yields exactly the occupied tuples, in ascending page order
and ascending slot order within each page, each carrying the rid of its
(page, slot) position; the position sequence is strictly increasing in the
lexicographic (page, slot) order. -/
theorem C7_heap_file_iterator_order (pages : List heapPage)
    (hwf : filePagesWfB 0 pages = true) :
    heapFileIterate pages = pages.flatMap heapPage.occupied
    ∧ (heapFileIterate pages).map Tuple.Rid
      = (filePositions 0 pages).map (fun q => some (⟨q.1, q.2⟩ : RecordID))
    ∧ (filePositions 0 pages).Pairwise posLt := by
  obtain ⟨h1, h2⟩ := heapFileIterate_spec pages 0 hwf
  exact ⟨h1, h2, (filePositions_facts pages 0).2⟩

/-- Witness for claim C7 at a concrete two-page file. -/
theorem C7_heap_file_iterator_order_witness :
    filePagesWfB 0 [demoPage0, demoPage1] = true
    ∧ (heapFileIterate [demoPage0, demoPage1]
        = [demoPage0, demoPage1].flatMap heapPage.occupied
      ∧ (heapFileIterate [demoPage0, demoPage1]).map Tuple.Rid
        = (filePositions 0 [demoPage0, demoPage1]).map
            (fun q => some (⟨q.1, q.2⟩ : RecordID))
      ∧ (filePositions 0 [demoPage0, demoPage1]).Pairwise posLt) :=
  ⟨by decide, C7_heap_file_iterator_order [demoPage0, demoPage1] (by decide)⟩

/-- Modelled from the spec: `TupleDesc.equals` holds when the two
descriptors have the same length and componentwise field types. -/
def TupleDesc.equals (d1 d2 : TupleDesc) : Bool :=
  (d1.Fields.length == d2.Fields.length)
  && (List.zip d1.Fields d2.Fields).all fun p => p.1.Ftype == p.2.Ftype

/-- The two validation checks at the top of `HeapFile.insertTuple`, in
source order, threading an abstract file-and-buffer-pool state σ through
Go-style (error, state) returns: a tuple whose value count differs from its
own descriptor's field count returns IllegalOperationError; otherwise a
tuple whose descriptor does not equal the file's returns
TypeMismatchError; both return before the page-search continuation `rest`
ever runs, leaving the state untouched. -/
def HeapFile.insertTupleChecked {σ : Type} (fdesc : TupleDesc) (t : Tuple)
    (s : σ) (rest : σ → Option GoDBError × σ) : Option GoDBError × σ :=
  if t.Desc.Fields.length != t.Fields.length then
    (some ⟨.IllegalOperationError, "invalid tuple"⟩, s)
  else if !(TupleDesc.equals fdesc t.Desc) then
    (some ⟨.TypeMismatchError, "tuple desc not match"⟩, s)
  else rest s

/-- Claim C8: `HeapFile.insertTuple` returns IllegalOperationError when the
tuple's value count differs from its own descriptor's field count, and
(when the counts agree, since that check runs first) TypeMismatchError when
the tuple's descriptor does not equal the file's; in both cases it returns
with the state unchanged, before any page is touched — for every
continuation `rest`, the continuation never runs and the returned state is
the input state. -/
theorem C8_heap_file_insert_validation {σ : Type} (fdesc : TupleDesc) (t : Tuple)
    (s : σ) (rest : σ → Option GoDBError × σ) :
    (t.Desc.Fields.length ≠ t.Fields.length →
      HeapFile.insertTupleChecked fdesc t s rest
        = (some ⟨.IllegalOperationError, "invalid tuple"⟩, s))
    ∧ (t.Desc.Fields.length = t.Fields.length →
      TupleDesc.equals fdesc t.Desc = false →
      HeapFile.insertTupleChecked fdesc t s rest
        = (some ⟨.TypeMismatchError, "tuple desc not match"⟩, s)) := by
  constructor
  · intro h
    simp [HeapFile.insertTupleChecked, h]
  · intro h1 h2
    simp [HeapFile.insertTupleChecked, h1, h2]

/-- Continuation standing for the rest of `insertTuple` in the C8 witness;
the theorem shows it is never invoked on the error paths. -/
def demoRest (s : List Tuple) : Option GoDBError × List Tuple := (none, s)

/-- Tuple with two values under a one-field descriptor (arity violation). -/
def demoBadArity : Tuple := ⟨sampleDesc, [.IntField 1, .IntField 2], none⟩

/-- Well-arity tuple whose descriptor type differs from `sampleDesc`. -/
def demoBadType : Tuple := ⟨⟨[⟨"x", "", .StringType⟩]⟩, [.StringField [65]], none⟩

/-- Witness for claim C8 at both error paths. -/
theorem C8_heap_file_insert_validation_witness :
    HeapFile.insertTupleChecked sampleDesc demoBadArity ([] : List Tuple) demoRest
      = (some ⟨.IllegalOperationError, "invalid tuple"⟩, ([] : List Tuple))
    ∧ HeapFile.insertTupleChecked sampleDesc demoBadType ([] : List Tuple) demoRest
      = (some ⟨.TypeMismatchError, "tuple desc not match"⟩, ([] : List Tuple)) :=
  ⟨(C8_heap_file_insert_validation sampleDesc demoBadArity [] demoRest).1 (by decide),
   (C8_heap_file_insert_validation sampleDesc demoBadType [] demoRest).2
     (by decide) (by decide)⟩

/-- A tuple's value variants match its descriptor's declared field types
(the correspondence the data-model invariant of the spec requires). -/
def tupleTypesConsistentB (t : Tuple) : Bool :=
  (t.Desc.Fields.length == t.Fields.length)
  && (List.zip t.Desc.Fields t.Fields).all fun p =>
      match p.1.Ftype, p.2 with
      | .IntType, .IntField _ => true
      | .StringType, .StringField _ => true
      | _, _ => false

/-- Claim C9: Min/Max `GetTupleDesc` always declares a single IntType field
named by the alias, whatever the aggregated expression's type; hence when
the stored extreme is a string value, `Finalize` returns a tuple whose
single value is a StringField under a descriptor declaring IntType, and the
variant/declared-type correspondence fails. -/
theorem C9_minmax_desc_always_int :
    (∀ a : MaxAggState, (a.GetTupleDesc).Fields = [⟨a.aggAlias, "", .IntType⟩])
    ∧ (∀ a : MinAggState, (a.GetTupleDesc).Fields = [⟨a.aggAlias, "", .IntType⟩])
    ∧ (∀ (a : MaxAggState) (s : List Nat), a.max = some (.StringField s) →
        ∃ t, a.Finalize = some t
          ∧ t.Desc.Fields = [⟨a.aggAlias, "", .IntType⟩]
          ∧ t.Fields = [.StringField s]
          ∧ tupleTypesConsistentB t = false)
    ∧ (∀ (a : MinAggState) (s : List Nat), a.min = some (.StringField s) →
        ∃ t, a.Finalize = some t
          ∧ t.Desc.Fields = [⟨a.aggAlias, "", .IntType⟩]
          ∧ t.Fields = [.StringField s]
          ∧ tupleTypesConsistentB t = false) := by
  refine ⟨fun a => rfl, fun a => rfl, ?_, ?_⟩
  · intro a s hmax
    refine ⟨⟨a.GetTupleDesc, [.StringField s], none⟩, ?_, rfl, rfl, ?_⟩
    · simp [MaxAggState.Finalize, hmax]
    · simp [tupleTypesConsistentB, MaxAggState.GetTupleDesc]
  · intro a s hmin
    refine ⟨⟨a.GetTupleDesc, [.StringField s], none⟩, ?_, rfl, rfl, ?_⟩
    · simp [MinAggState.Finalize, hmin]
    · simp [tupleTypesConsistentB, MinAggState.GetTupleDesc]

/-- Expression evaluating to a constant string, for the C9 witness. -/
def demoStrExpr : Expr := fun _ => some (.StringField [66])

/-- Witness for claim C9: a Max state actually produced by `AddTuple` on a
string-valued expression finalizes to a StringField under an IntType
descriptor. -/
theorem C9_minmax_desc_always_int_witness :
    ∃ t, (MaxAggState.AddTuple ⟨"m", demoStrExpr, none⟩ (sampleTuple 0)).Finalize = some t
      ∧ t.Desc.Fields
        = [⟨(MaxAggState.AddTuple ⟨"m", demoStrExpr, none⟩ (sampleTuple 0)).aggAlias,
            "", .IntType⟩]
      ∧ t.Fields = [.StringField [66]]
      ∧ tupleTypesConsistentB t = false :=
  C9_minmax_desc_always_int.2.2.1
    (MaxAggState.AddTuple ⟨"m", demoStrExpr, none⟩ (sampleTuple 0)) [66] (by decide)

/-- Modelled from the spec: `findFieldInTd` looks a field up by (name,
qualifier): with an empty search qualifier the match is
qualifier-insensitive; the first match is returned; ambiguity (two or more
matches) on an empty qualifier is an error; no match is
FieldNotFoundError.  Only the empty-qualifier lookup is exercised by
`computeFieldSum`. -/
def findFieldInTd (f : FieldType) (td : TupleDesc) : Except GoDBError Nat :=
  let matchIdx := (List.range td.Fields.length).filter fun i =>
    match td.Fields[i]? with
    | some ft =>
      ft.Fname == f.Fname
        && (f.TableQualifier == "" || ft.TableQualifier == f.TableQualifier)
    | none => false
  match matchIdx with
  | [] => .error ⟨.FieldNotFoundError, "field not found"⟩
  | [i] => .ok i
  | i :: _ :: _ =>
    if f.TableQualifier == "" then .error ⟨.AmbiguousNameError, "ambiguous field name"⟩
    else .ok i

/-- Early phase of `computeFieldSum` (lab1_query.go): resolve the field
named `sumField` (empty qualifier) in `td`; on a lookup error return
(0, the error); when the resolved field's type is not IntType, return —
reply and err still hold their zero values (0, nil); otherwise the function
proceeds to file I/O, modelled as `none`. -/
def computeFieldSumEarly (td : TupleDesc) (sumField : String) :
    Option (Int × Option GoDBError) :=
  match findFieldInTd ⟨sumField, "", .IntType⟩ td with
  | .error e => some (0, some e)
  | .ok i =>
    match td.Fields[i]? with
    | some ft => if ft.Ftype != .IntType then some (0, none) else none
    | none => none

/-- Claim C10: when the field named `sumField` resolves in `td` but its type
is not IntType, `computeFieldSum` returns (0, nil) — a zero sum and no
error — instead of reporting the type mismatch. -/
theorem C10_compute_field_sum_swallows_type_mismatch (td : TupleDesc)
    (sumField : String) (i : Nat) (ft : FieldType)
    (hfind : findFieldInTd ⟨sumField, "", .IntType⟩ td = .ok i)
    (hft : td.Fields[i]? = some ft) (hty : ft.Ftype ≠ .IntType) :
    computeFieldSumEarly td sumField = some (0, none) := by
  simp [computeFieldSumEarly, hfind, hft, hty]

/-- Descriptor with a single string field named s, for the C10 witness. -/
def demoStrDesc : TupleDesc := ⟨[⟨"s", "", .StringType⟩]⟩

/-- Witness for claim C10 at a concrete descriptor. -/
theorem C10_compute_field_sum_swallows_type_mismatch_witness :
    computeFieldSumEarly demoStrDesc "s" = some (0, none) :=
  C10_compute_field_sum_swallows_type_mismatch demoStrDesc "s" 0
    ⟨"s", "", .StringType⟩ rfl (by decide) (by decide)

end GoDB
